import Mathlib

/-!
# Favorites subsystem of the NakhonSi site (`src/main.js`, class `FavoritesManager`)

A shallow embedding of `FavoritesManager` and of the parts of the browser it
talks to (the storage key, the current path, the elements of the page), with
the properties of the favorites list, of the resolver and of the filter.

Conventions of the embedding.

* The texts the class handles (ids, attribute values, the path, the stored
  text) are Lean strings, sequences of Unicode scalar values. The strings that
  `JSON.parse` builds are kept as the sequences of UTF-16 code units they are,
  since an escape can put half a surrogate pair in them.
* The values that reach `toggle` as an id are `undefined` (a missing
  `data-fav-id`), `null` (the resolver found nothing) and strings; the
  favorites array holds values of the same kind.  On these `===` (used by
  `indexOf`) and SameValueZero (used by `includes`) are plain equality.
* `localStorage` is reduced to the one key the class uses: `none` when the key
  is absent, `some text` otherwise.
* `updateButtons` hands the selector text `[data-fav-id="..."]`, with the id
  interpolated as it is, to `querySelectorAll`, which parses it as CSS. The
  embedding reads the text itself where the reading is immediate: an id
  without quote, backslash, line break or NUL is the attribute value to match,
  and an id that breaks the string or the attribute test makes the selector
  invalid. For every other text the answer of `querySelectorAll` is taken from
  the `Browser` the functions are given.
-/

namespace NakhonSi

/-- Values that can stand as a favorite id and as an entry of the favorites array. -/
inductive JSVal where
  | undefined
  | null
  | str (s : String)
deriving DecidableEq, Repr

/-- Exceptions raised by the built-ins the class calls. -/
inductive JSError where
  /-- The SyntaxError of `JSON.parse`. -/
  | SyntaxError
  | TypeError
  /-- The DOMException named SyntaxError of `querySelectorAll`, for a text that
  is not a valid selector. -/
  | DOMSyntaxError
deriving DecidableEq, Repr

/-- The way a call ends: it returns a value, or it throws. -/
inductive Completion (α : Type) where
  | returned (value : α)
  | threw (error : JSError)
deriving DecidableEq, Repr

/-! ## Array built-ins -/

/-- Search of `Array.prototype.indexOf` from position `k` on: the position of the
first entry strictly equal to `x`, or `-1`. -/
def indexOfFrom (x : JSVal) : List JSVal → Nat → Int
  | [], _ => -1
  | y :: ys, k => if y = x then (k : Int) else indexOfFrom x ys (k + 1)

/-- `Array.prototype.indexOf(x)`. -/
def indexOf (l : List JSVal) (x : JSVal) : Int := indexOfFrom x l 0

/-- `Array.prototype.includes(x)`. -/
def includes (l : List JSVal) (x : JSVal) : Bool := l.any (fun y => decide (y = x))

/-- `Array.prototype.push(x)`: the array after the call. -/
def push (l : List JSVal) (x : JSVal) : List JSVal := l ++ [x]

/-- `Array.prototype.splice(start, deleteCount)`: the array after the call.  A
negative `start` counts from the end, and `start` is clamped to the array. -/
def splice (l : List JSVal) (start : Int) (deleteCount : Nat) : List JSVal :=
  let len : Int := l.length
  let from_ : Nat := if start < 0 then (max (len + start) 0).toNat else (min start len).toNat
  l.take from_ ++ l.drop (from_ + deleteCount)

/-! ## `JSON.stringify` on the favorites array -/

/-- Lower-case hexadecimal digit of a number below sixteen. -/
def hexDigit (n : Nat) : Char :=
  if n < 10 then Char.ofNat (48 + n) else Char.ofNat (87 + n)

/-- Text that `JSON.stringify` writes for one character of a string. -/
def quoteChar (c : Char) : List Char :=
  if c = '"' then ['\\', '"']
  else if c = '\\' then ['\\', '\\']
  else if c = '\x08' then ['\\', 'b']
  else if c = '\x0c' then ['\\', 'f']
  else if c = '\n' then ['\\', 'n']
  else if c = '\r' then ['\\', 'r']
  else if c = '\t' then ['\\', 't']
  else if c.toNat < 32 then ['\\', 'u', '0', '0', hexDigit (c.toNat / 16), hexDigit (c.toNat % 16)]
  else [c]

/-- Text that `JSON.stringify` writes for a string: the quoted, escaped string. -/
def quoteJSONString (s : String) : List Char :=
  '"' :: (s.toList.flatMap quoteChar ++ ['"'])

/-- Text that `JSON.stringify` writes for an entry of an array: `undefined` and
`null` both come out as `null`. -/
def stringifyEntry : JSVal → List Char
  | .undefined => ['n', 'u', 'l', 'l']
  | .null => ['n', 'u', 'l', 'l']
  | .str s => quoteJSONString s

/-- Entries of an array joined by commas. -/
def joinEntries : List JSVal → List Char
  | [] => []
  | [x] => stringifyEntry x
  | x :: y :: rest => stringifyEntry x ++ ',' :: joinEntries (y :: rest)

/-- `JSON.stringify(favorites)` for an array of ids. -/
def JSON_stringify (l : List JSVal) : String :=
  String.mk ('[' :: (joinEntries l ++ [']']))

/-! ## The resolver: `path.match(/destination(\d+)\.html/)` -/

/-- Class `\d` of the regular expression. -/
def isDigit (c : Char) : Bool := decide ('0' ≤ c) && decide (c ≤ '9')

/-- Match of a literal piece of the pattern at the head of the input; the rest of
the input on success. -/
def matchLiteral : List Char → List Char → Option (List Char)
  | [], cs => some cs
  | _ :: _, [] => none
  | p :: ps, c :: cs => if p = c then matchLiteral ps cs else none

/-- Match of `(\d+)\.html` at the head of the input, with the captured digits.
The quantifier is greedy: it first tries to take one more digit and comes back
to the shorter run when the rest of the pattern fails after the longer one. -/
def matchDigitsHtml : List Char → Option (List Char)
  | [] => none
  | c :: cs =>
    if isDigit c then
      match matchDigitsHtml cs with
      | some ds => some (c :: ds)
      | none =>
        match matchLiteral ".html".toList cs with
        | some _ => some [c]
        | none => none
    else none

/-- Match of the whole pattern starting exactly at the head of the input. -/
def matchHere (cs : List Char) : Option (List Char) :=
  match matchLiteral "destination".toList cs with
  | some rest => matchDigitsHtml rest
  | none => none

/-- Leftmost match of the unanchored pattern: the start positions are tried from
left to right. The result is capture group 1. -/
def regexMatch : List Char → Option (List Char)
  | [] => none
  | c :: cs =>
    match matchHere (c :: cs) with
    | some ds => some ds
    | none => regexMatch cs

/-- The two uses of the pattern: `match ? match[1] : null`. -/
def destinationIdOf (text : String) : JSVal :=
  match regexMatch text.toList with
  | some ds => .str (String.mk ds)
  | none => .null

/-! ## `JSON.parse` -/

/-- A number of a JSON text, kept as the decimal it spells: its value is
`mantissa * 10 ^ exp10`, negated when `negative`. -/
structure JNumber where
  negative : Bool
  mantissa : Nat
  exp10 : Int
deriving DecidableEq, Repr

/-- Values that `JSON.parse` can return. A string is the sequence of its UTF-16
code units; an object is given by the members its text lists, in the order of
the text. -/
inductive Json where
  | null
  | bool (b : Bool)
  | num (n : JNumber)
  | str (units : List Nat)
  | arr (items : List Json)
  | obj (members : List (List Nat × Json))

/-- The Number read from the decimal is not zero. The decimal is rounded to the
nearest double, ties to even, so it comes out as zero exactly when its
magnitude is at most `2 ^ (-1075)`, half the smallest positive double. -/
def JNumber.nonzero (n : JNumber) : Bool :=
  if n.mantissa = 0 then false
  else if 0 ≤ n.exp10 then true
  else decide (10 ^ (-n.exp10).toNat < n.mantissa * 2 ^ 1075)

/-- Truthiness of a parsed value, as `||` tests it. -/
def Json.truthy : Json → Bool
  | .null => false
  | .bool b => b
  | .num n => n.nonzero
  | .str units => decide (units ≠ [])
  | .arr _ => true
  | .obj _ => true

/-- White space of the JSON grammar: tab, line feed, carriage return, space. -/
def isJsonWs (c : Char) : Bool :=
  decide (c = '\t') || decide (c = '\n') || decide (c = '\r') || decide (c = ' ')

/-- Input after the leading white space. -/
def skipWs : List Char → List Char
  | [] => []
  | c :: cs => if isJsonWs c then skipWs cs else c :: cs

/-- Leading run of decimal digits and the input after it. -/
def spanDigits : List Char → List Char × List Char
  | [] => ([], [])
  | c :: cs =>
    if isDigit c then
      let r := spanDigits cs
      (c :: r.1, r.2)
    else ([], c :: cs)

/-- Number spelled by a run of decimal digits. -/
def digitsValue (ds : List Char) : Nat :=
  ds.foldl (fun acc d => 10 * acc + (d.toNat - 48)) 0

/-- Value of a hexadecimal digit, upper or lower case. -/
def hexValue (c : Char) : Option Nat :=
  if isDigit c then some (c.toNat - 48)
  else if decide ('a' ≤ c) && decide (c ≤ 'f') then some (c.toNat - 87)
  else if decide ('A' ≤ c) && decide (c ≤ 'F') then some (c.toNat - 55)
  else none

/-- Code unit spelled by the four hexadecimal digits of a `\u` escape. -/
def hex4 (a b c d : Char) : Option Nat :=
  match hexValue a, hexValue b, hexValue c, hexValue d with
  | some x, some y, some z, some w => some (((x * 16 + y) * 16 + z) * 16 + w)
  | _, _, _, _ => none

/-- Optional fraction of a number: the digits after the point. -/
def parseFraction : List Char → Option (List Char × List Char)
  | '.' :: cs => if (spanDigits cs).1 = [] then none else some (spanDigits cs)
  | cs => some ([], cs)

/-- Optional minus sign in front of a number: whether it is there, and the input
after it. -/
def takeMinus : List Char → Bool × List Char
  | '-' :: r => (true, r)
  | r => (false, r)

/-- Optional sign of an exponent: whether it is a minus, and the input after it. -/
def takeSign : List Char → Bool × List Char
  | '-' :: r => (true, r)
  | '+' :: r => (false, r)
  | r => (false, r)

/-- Digits of an exponent after its sign. -/
def parseExponentDigits (negative : Bool) (cs : List Char) : Option (Int × List Char) :=
  if (spanDigits cs).1 = [] then none
  else if negative then some (-((digitsValue (spanDigits cs).1 : Nat) : Int), (spanDigits cs).2)
  else some (((digitsValue (spanDigits cs).1 : Nat) : Int), (spanDigits cs).2)

/-- Optional exponent of a number. -/
def parseExponent : List Char → Option (Int × List Char)
  | c :: cs =>
    if c = 'e' ∨ c = 'E' then parseExponentDigits (takeSign cs).1 (takeSign cs).2
    else some (0, c :: cs)
  | [] => some (0, [])

/-- Integer part of a number: a single zero, or a run of digits that does not
start with zero. -/
def parseIntPart : List Char → Option (List Char × List Char)
  | [] => none
  | c :: cs =>
    if c = '0' then some (['0'], cs)
    else if isDigit c then some (spanDigits (c :: cs))
    else none

/-- A number at the head of the input. -/
def parseNumber (cs : List Char) : Option (JNumber × List Char) :=
  match parseIntPart (takeMinus cs).2 with
  | none => none
  | some (ip, r1) =>
    match parseFraction r1 with
    | none => none
    | some (fp, r2) =>
      match parseExponent r2 with
      | none => none
      | some (e, r3) =>
        some ({ negative := (takeMinus cs).1, mantissa := digitsValue (ip ++ fp),
                exp10 := e - (fp.length : Int) }, r3)

/-- UTF-16 code units of a character: one unit below U+10000, a surrogate pair
from there on. -/
def utf16Units (c : Char) : List Nat :=
  if c.toNat < 0x10000 then [c.toNat]
  else [0xD800 + (c.toNat - 0x10000) / 0x400, 0xDC00 + (c.toNat - 0x10000) % 0x400]

/-- UTF-16 code units of a text. -/
def utf16 (s : String) : List Nat := s.toList.flatMap utf16Units

/-- Code unit named by a one-letter escape. -/
def simpleEscape (c : Char) : Option Nat :=
  if c = '"' then some 0x22
  else if c = '\\' then some 0x5C
  else if c = '/' then some 0x2F
  else if c = 'b' then some 0x08
  else if c = 'f' then some 0x0C
  else if c = 'n' then some 0x0A
  else if c = 'r' then some 0x0D
  else if c = 't' then some 0x09
  else none

/-- A string after its opening quote: the code units read so far are in `acc`,
latest first. A `\u` escape gives the code unit it spells, whatever it is; a
character of the text gives its own code units. -/
def parseStringBody : Nat → List Char → List Nat → Option (List Nat × List Char)
  | 0, _, _ => none
  | _ + 1, [], _ => none
  | fuel + 1, c :: cs, acc =>
    if c = '"' then some (acc.reverse, cs)
    else if c = '\\' then
      match cs with
      | 'u' :: a :: b :: c2 :: d :: rest =>
        match hex4 a b c2 d with
        | some unit => parseStringBody fuel rest (unit :: acc)
        | none => none
      | e :: rest =>
        match simpleEscape e with
        | some unit => parseStringBody fuel rest (unit :: acc)
        | none => none
      | [] => none
    else if c.toNat < 32 then none
    else parseStringBody fuel cs ((utf16Units c).reverse ++ acc)

/-- A string after its opening quote. -/
def parseString (cs : List Char) : Option (List Nat × List Char) :=
  parseStringBody (cs.length + 1) cs []

mutual

/-- A value at the head of the input, after optional white space. -/
def parseValue : Nat → List Char → Option (Json × List Char)
  | 0, _ => none
  | fuel + 1, cs =>
    match skipWs cs with
    | [] => none
    | c :: rest =>
      if c = '"' then
        match parseString rest with
        | some (s, r) => some (.str s, r)
        | none => none
      else if c = '[' then
        match skipWs rest with
        | ']' :: r => some (.arr [], r)
        | _ => parseElements fuel rest
      else if c = '\x7b' then
        match skipWs rest with
        | '\x7d' :: r => some (.obj [], r)
        | _ => parseMembers fuel rest
      else if c = 'n' then
        match matchLiteral "ull".toList rest with
        | some r => some (.null, r)
        | none => none
      else if c = 't' then
        match matchLiteral "rue".toList rest with
        | some r => some (.bool true, r)
        | none => none
      else if c = 'f' then
        match matchLiteral "alse".toList rest with
        | some r => some (.bool false, r)
        | none => none
      else
        match parseNumber (c :: rest) with
        | some (n, r) => some (.num n, r)
        | none => none

/-- Elements of an array after its opening bracket, up to the closing one. -/
def parseElements : Nat → List Char → Option (Json × List Char)
  | 0, _ => none
  | fuel + 1, cs =>
    match parseValue fuel cs with
    | none => none
    | some (v, r) =>
      match skipWs r with
      | ']' :: r2 => some (.arr [v], r2)
      | ',' :: r2 =>
        match parseElements fuel r2 with
        | some (.arr vs, r3) => some (.arr (v :: vs), r3)
        | _ => none
      | _ => none

/-- Members of an object after its opening brace, up to the closing one. -/
def parseMembers : Nat → List Char → Option (Json × List Char)
  | 0, _ => none
  | fuel + 1, cs =>
    match skipWs cs with
    | '"' :: r0 =>
      match parseString r0 with
      | none => none
      | some (k, r1) =>
        match skipWs r1 with
        | ':' :: r2 =>
          match parseValue fuel r2 with
          | none => none
          | some (v, r3) =>
            match skipWs r3 with
            | '\x7d' :: r4 => some (.obj [(k, v)], r4)
            | ',' :: r4 =>
              match parseMembers fuel r4 with
              | some (.obj ms, r5) => some (.obj ((k, v) :: ms), r5)
              | _ => none
            | _ => none
        | _ => none
    | _ => none

end

/-- `JSON.parse(text)`: the value, or the SyntaxError it throws. -/
def JSON_parse (text : String) : Except JSError Json :=
  match parseValue (2 * text.length + 2) text.toList with
  | some (v, rest) =>
    match skipWs rest with
    | [] => .ok v
    | _ :: _ => .error .SyntaxError
  | none => .error .SyntaxError

/-! ## The page -/

/-- An element of the page that `initUI` and `updateButtons` can reach. -/
structure Element where
  /-- Value of `dataset.favId`: the attribute `data-fav-id`, when present. -/
  favId : Option String
  /-- The element has the id `add-favorite-detail`. -/
  isDetail : Bool
  /-- The class list holds `active`. -/
  active : Bool
  innerHTML : String
  /-- Value of `style.display`. -/
  display : String
deriving DecidableEq, Repr

/-- State of the manager together with what it reads and writes in the browser. -/
structure State where
  /-- Field `this.favorites`. -/
  favorites : List JSVal
  /-- Content of `localStorage` under `nakhonSi_favorites`. -/
  storage : Option String
  /-- Value of `window.location.pathname`. -/
  path : String
  /-- Elements of the document, in document order. -/
  elements : List Element
deriving DecidableEq, Repr

/-- Truthiness of an id (`!id` in `initUI`, `id &&` in `applyFilter`). -/
def JSVal.truthy : JSVal → Bool
  | .undefined => false
  | .null => false
  | .str s => decide (s ≠ "")

/-- Text of an id inside a template literal. -/
def JSVal.toText : JSVal → String
  | .undefined => "undefined"
  | .null => "null"
  | .str s => s

/-! ## The selector text `[data-fav-id="..."]` -/

/-- Reading of the selector text built from an id text. -/
inductive SelectorReading where
  /-- The selector is valid and selects the elements whose `data-fav-id` is
  exactly this value. -/
  | attributeEquals (value : String)
  /-- The text is not a valid selector: `querySelectorAll` throws. -/
  | invalid
  /-- The text is none of the two on its face (an escape, a quote followed by
  the end of the attribute test, by a modifier or by a comment): its meaning is
  what the browser says. -/
  | other
deriving DecidableEq, Repr

/-- Line breaks of CSS: line feed, carriage return, form feed. -/
def isCssNewline (c : Char) : Bool :=
  decide (c = '\n') || decide (c = '\r') || decide (c = '\x0c')

/-- White space of CSS: the line breaks, tab and space. -/
def isCssWhitespace (c : Char) : Bool :=
  isCssNewline c || decide (c = '\t') || decide (c = ' ')

/-- Reading of what follows the closing quote of the attribute value, inside
the brackets. After white space the attribute test can only go on with `]` or
with the modifier `i` or `s`; a `/` can open a comment and a `\` an escape, and
what these lead to is left to the browser, as is what follows a `]` or a
modifier. Any other character makes the selector invalid. -/
def readAfterValue : List Char → SelectorReading
  | [] => .other
  | c :: cs =>
    if isCssWhitespace c then readAfterValue cs
    else if c = ']' ∨ c = '/' ∨ c = '\\' ∨ c = 'i' ∨ c = 'I' ∨ c = 's' ∨ c = 'S' then .other
    else .invalid

/-- Reading of the id text inside the quotes, from the current character on;
`text` is the whole id text. A quote ends the value there, and what follows it
(the rest of the id and the closing `"]` of the template) decides; a line break
inside the quotes makes the selector invalid; a backslash starts an escape,
left to the browser; a NUL is replaced by the CSS parser, so a text with a NUL
and nothing else special is left to the browser too. When none of these occurs
the value is the id text itself. -/
def readValue (text : List Char) : List Char → SelectorReading
  | [] => .attributeEquals (String.mk text)
  | c :: cs =>
    if c = '"' then readAfterValue (cs ++ ['"', ']'])
    else if c = '\\' then .other
    else if isCssNewline c then .invalid
    else if c = '\x00' then
      match readValue text cs with
      | .attributeEquals _ => .other
      | r => r
    else readValue text cs

/-- Reading of the selector text `[data-fav-id="text"]`. -/
def readFavIdSelector (text : String) : SelectorReading := readValue text.toList text.toList

/-- The id text holds none of the characters that CSS treats specially inside a
quoted string: quote, backslash, a line break, NUL. -/
def selectorPlain (text : String) : Bool :=
  text.toList.all (fun c =>
    !(decide (c = '"') || decide (c = '\\') || isCssNewline c || decide (c = '\x00')))

/-- The part of the browser that the embedding does not read itself. -/
structure Browser where
  /-- Answer of `document.querySelectorAll(selector)` on a page with these
  elements: for each element, in order, whether it is selected; or the error
  thrown. -/
  querySelectorAll : String → List Element → Completion (List Bool)

namespace FavoritesManager

def storageKey : String := "nakhonSi_favorites"

def savedLabel : String := "บันทึกแล้ว ❤️"

def addLabel : String := "เพิ่มในรายการโปรด 🤍"

/-- Method `getCurrentDestinationId`, as a function of the path. -/
def getCurrentDestinationId (path : String) : JSVal := destinationIdOf path

/-- Method `load`. `getItem` gives `null` for an absent key, and `JSON.parse`
reads its argument as text, so an absent key is parsed as the text `null`. -/
def load (storage : Option String) : Except JSError Json :=
  let text := match storage with
    | some t => t
    | none => "null"
  match JSON_parse text with
  | .error e => .error e
  | .ok v => .ok (if v.truthy then v else .arr [])

/-- Method `save`: the content of the storage key after the call. -/
def save (favorites : List JSVal) : Option String := some (JSON_stringify favorites)

/-- Method `updateButtonStyle`. -/
def updateButtonStyle (btn : Element) (isFav : Bool) : Element :=
  let btn1 : Element := { btn with active := isFav }
  if btn1.isDetail then
    { btn1 with innerHTML := if isFav then savedLabel else addLabel, display := "inline-flex" }
  else btn1

/-- Effect of `getElementById('add-favorite-detail')` followed by
`updateButtonStyle`: the first element with that id is repainted. -/
def updateDetail (isFav : Bool) : List Element → List Element
  | [] => []
  | e :: es => if e.isDetail then updateButtonStyle e isFav :: es else e :: updateDetail isFav es

/-- The element has the attribute `data-fav-id` with exactly this value: the
test of a valid selector `[data-fav-id="value"]`. -/
def selectedByFavId (value : String) (btn : Element) : Bool := decide (btn.favId = some value)

/-- Text of the selector that `updateButtons` builds for an id text. -/
def favIdSelector (text : String) : String := "[data-fav-id=\"" ++ text ++ "\"]"

/-- `document.querySelectorAll` for the selector built from an id text: for each
element of the page, in order, whether it is selected; or the error thrown.
The reading of the text is by `readFavIdSelector`; a text beyond it goes to the
browser as the selector it is. -/
def querySelectorAllFavId (browser : Browser) (text : String) (elements : List Element) :
    Completion (List Bool) :=
  match readFavIdSelector text with
  | .attributeEquals value => .returned (elements.map (selectedByFavId value))
  | .invalid => .threw .DOMSyntaxError
  | .other => browser.querySelectorAll (favIdSelector text) elements

/-- The `forEach` of `updateButtons` over the selected elements: each element
marked as selected is repainted. -/
def paintSelected (isFav : Bool) : List Element → List Bool → List Element
  | [], _ => []
  | btn :: rest, [] => btn :: rest
  | btn :: rest, mark :: marks =>
    (if mark then updateButtonStyle btn isFav else btn) :: paintSelected isFav rest marks

/-- Method `updateButtons`: the elements after the call, or the error that
`querySelectorAll` throws, before anything is repainted. -/
def updateButtons (browser : Browser) (path : String) (elements : List Element) (id : JSVal)
    (isFav : Bool) : Completion (List Element) :=
  match querySelectorAllFavId browser id.toText elements with
  | .threw e => .threw e
  | .returned marks =>
    let painted := paintSelected isFav elements marks
    .returned (if getCurrentDestinationId path = id then updateDetail isFav painted else painted)

/-- Method `toggle`: the way the call ends, with the returned boolean, and the
state after the call. The list is changed and saved before `updateButtons`
runs; when that call throws, `toggle` throws too, the page as it was. -/
def toggle (browser : Browser) (s : State) (id : JSVal) : Completion Bool × State :=
  let index := indexOf s.favorites id
  let isAdded := decide (index = -1)
  let favorites := if isAdded then push s.favorites id else splice s.favorites index 1
  let storage := save favorites
  match updateButtons browser s.path s.elements id isAdded with
  | .threw e =>
    (.threw e,
      { favorites := favorites, storage := storage, path := s.path, elements := s.elements })
  | .returned elements =>
    (.returned isAdded,
      { favorites := favorites, storage := storage, path := s.path, elements := elements })

/-- The test `this.favorites.includes(id)` of `initUI` and `applyFilter`, which the
specification calls `isFavorite`. -/
def isFavorite (s : State) (id : JSVal) : Bool := includes s.favorites id

/-- State after a sequence of `toggle` calls, one per id, in order. -/
def toggleAll (browser : Browser) (s : State) : List JSVal → State
  | [] => s
  | id :: ids => toggleAll browser (toggle browser s id).2 ids

/-- The element is selected by `'[data-fav-id], #add-favorite-detail'`. -/
def selected (btn : Element) : Bool := btn.favId.isSome || btn.isDetail

/-- Value of `btn.dataset.favId`: the attribute text, or `undefined`. -/
def datasetFavId (btn : Element) : JSVal :=
  match btn.favId with
  | some v => .str v
  | none => .undefined

/-- The id of `initUI`: `btn.dataset.favId || this.getCurrentDestinationId()`. -/
def resolveId (path : String) (btn : Element) : JSVal :=
  if (datasetFavId btn).truthy then datasetFavId btn else getCurrentDestinationId path

/-- Body of the `forEach` of `initUI` for one element of the page: the element
after the call, and the id that its click listener passes to `toggle` when a
listener is registered. An element the selector leaves out, or for which no id
is found, is left alone. -/
def initButton (favorites : List JSVal) (path : String) (btn : Element) :
    Element × Option JSVal :=
  if selected btn then
    let id := resolveId path btn
    if id.truthy then (updateButtonStyle btn (includes favorites id), some id)
    else (btn, none)
  else (btn, none)

/-- Method `initUI`, its part on the favorite buttons: the state after the call,
and for each element of the page the id bound to its click listener. -/
def initUI (s : State) : State × List (Option JSVal) :=
  let done := s.elements.map (initButton s.favorites s.path)
  ({ s with elements := done.map Prod.fst }, done.map Prod.snd)

/-- A click on the element at position `i`: its listener, when `initUI`
registered one, calls `toggle` with the bound id. -/
def click (browser : Browser) (listeners : List (Option JSVal)) (s : State) (i : Nat) : State :=
  match listeners[i]? with
  | some (some id) => (toggle browser s id).2
  | _ => s

/-- State after a sequence of clicks. -/
def clickAll (browser : Browser) (listeners : List (Option JSVal)) (s : State) :
    List Nat → State
  | [] => s
  | i :: is => clickAll browser listeners (click browser listeners s i) is

/-- A card of the gallery (`.gallery .card`). -/
structure Card where
  /-- Value of `getAttribute('href')`: the attribute text, `none` for `null`. -/
  href : Option String
  /-- Value of `style.display`. -/
  display : String
deriving DecidableEq, Repr

/-- Method `applyFilter` on the cards from the current one on: the cards after
the call, and the TypeError that ends the loop at a card without `href`, whose
`href.match` is a call on `null`. -/
def applyFilterFrom (favorites : List JSVal) (isActive : Bool) :
    List Card → List Card × Option JSError
  | [] => ([], none)
  | card :: rest =>
    match card.href with
    | none => (card :: rest, some .TypeError)
    | some href =>
      let id := destinationIdOf href
      let card1 : Card :=
        if isActive && id.truthy && !(includes favorites id) then { card with display := "none" }
        else { card with display := "flex" }
      let done := applyFilterFrom favorites isActive rest
      (card1 :: done.1, done.2)

/-- Method `applyFilter`. -/
def applyFilter (favorites : List JSVal) (isActive : Bool) (cards : List Card) :
    List Card × Option JSError :=
  applyFilterFrom favorites isActive cards

end FavoritesManager

/-! ## Reference definitions, in the words of the specification -/

/-- The list with the first occurrence of `x` removed, the other entries kept in
their order. -/
def removeFirst (x : JSVal) : List JSVal → List JSVal
  | [] => []
  | y :: ys => if y = x then ys else y :: removeFirst x ys

/-- Reference definition of toggle on the favorites list: when the id is present
remove it (result `false`), when it is absent append it (result `true`). -/
def toggleReference (l : List JSVal) (x : JSVal) : Bool × List JSVal :=
  if x ∈ l then (false, removeFirst x l) else (true, l ++ [x])

/-- Last segment of a path: the text after its last slash. -/
def lastSegment : List Char → List Char
  | [] => []
  | c :: cs => if '/' ∈ cs then lastSegment cs else if c = '/' then cs else c :: cs

/-- The text has the form `destinationN.html`, with `N` one or more decimal digits. -/
def isDestinationFileName (name : List Char) : Bool :=
  match matchLiteral "destination".toList name with
  | none => false
  | some rest =>
    let r := spanDigits rest
    !r.1.isEmpty && decide (r.2 = ".html".toList)

/-- The path names a file of the form `destinationN.html`. -/
def namesDestinationFile (path : String) : Bool :=
  isDestinationFileName (lastSegment path.toList)

end NakhonSi

/-! ## Concrete pages and lists used in the examples -/

namespace NakhonSi

/-- A state without page elements, on the home page, holding the given list
with its serialization in storage. -/
def stateOf (l : List JSVal) : State :=
  { favorites := l, storage := some (JSON_stringify l), path := "/index.html", elements := [] }

/-- The elements after `updateButtons(id, isFav)` when the selector is the plain
attribute test on the id text: the elements with that `data-fav-id` are
repainted, then the detail button when the resolver gives the id. -/
def repaintedElements (path : String) (elements : List Element) (id : JSVal) (isFav : Bool) :
    List Element :=
  let painted := elements.map (fun btn =>
    if FavoritesManager.selectedByFavId id.toText btn then
      FavoritesManager.updateButtonStyle btn isFav
    else btn)
  if FavoritesManager.getCurrentDestinationId path = id then
    FavoritesManager.updateDetail isFav painted
  else painted

end NakhonSi

namespace NakhonSi

/-- Position of the element that `getElementById('add-favorite-detail')` returns:
the first element with that id. -/
def detailIndex : List Element → Option Nat
  | [] => none
  | e :: es => if e.isDetail then some 0 else (detailIndex es).map (fun i => i + 1)

/-- The element at position `i` is one that `updateButtons(id, _)` repaints: its
`data-fav-id` is the text of the id, or it is the detail element and the
resolver gives the id for the current path. -/
def repaints (path : String) (elements : List Element) (id : JSVal) (i : Nat) : Bool :=
  (match elements[i]? with
    | some e => FavoritesManager.selectedByFavId id.toText e
    | none => false)
  || (decide (FavoritesManager.getCurrentDestinationId path = id)
      && decide (detailIndex elements = some i))

/-- A card button carrying `data-fav-id`, not yet painted. -/
def cardButton (favId : String) : Element :=
  { favId := some favId, isDetail := false, active := false, innerHTML := "", display := "" }

/-- The detail button of a destination page, with an optional `data-fav-id`. -/
def detailButton (favId : Option String) : Element :=
  { favId := favId, isDetail := true, active := false, innerHTML := "", display := "none" }

/-- A page at the given path with the given elements, with a fresh store. -/
def pageOf (path : String) (elements : List Element) : State :=
  { favorites := [], storage := none, path := path, elements := elements }

end NakhonSi

namespace NakhonSi

/-- A gallery card linking to the page of the destination with the given number. -/
def cardTo (n : String) : FavoritesManager.Card :=
  { href := some ("destination/destination" ++ n ++ ".html"), display := "" }

/-- The filter hides a card with this link: an id is parsed from the link and is
not in the favorites list. -/
def hiddenByFilter (favorites : List JSVal) (href : String) : Bool :=
  decide (destinationIdOf href ≠ .null) && !(includes favorites (destinationIdOf href))

end NakhonSi

namespace NakhonSi

/-- The text holds, starting at position `k`, an occurrence of
`destinationN.html` whose `N` is the non-empty run of decimal digits `digits`. -/
def OccursAt (text : List Char) (k : Nat) (digits : List Char) : Prop :=
  ∃ pre post : List Char, pre.length = k
    ∧ text = pre ++ ("destination".toList ++ (digits ++ (".html".toList ++ post)))
    ∧ digits ≠ [] ∧ ∀ c ∈ digits, isDigit c = true

end NakhonSi

namespace NakhonSi

/-- The parsed value that the serialization of an id reads back as: `undefined`
is written as `null`. -/
def JSVal.toJson : JSVal → Json
  | .undefined => .null
  | .null => .null
  | .str s => .str (utf16 s)

/-- A browser that accepts every selector text the embedding does not read
itself and selects nothing for it. The examples use it; none of their ids
reaches it. -/
def quietBrowser : Browser :=
  { querySelectorAll := fun _ elements => .returned (elements.map (fun _ => false)) }

end NakhonSi

/-! ## Properties -/

namespace NakhonSi

open FavoritesManager

/-! ### Array built-ins -/

theorem indexOfFrom_of_not_mem (x : JSVal) :
    ∀ (l : List JSVal) (k : Nat), x ∉ l → indexOfFrom x l k = -1 := by
  intro l
  induction l with
  | nil => intro k _; rfl
  | cons y ys ih =>
    intro k h
    have hy : y ≠ x := fun e => h (by simp [e])
    have hys : x ∉ ys := fun e => h (by simp [e])
    simp [indexOfFrom, hy, ih (k + 1) hys]

theorem indexOfFrom_split (x : JSVal) :
    ∀ (pre post : List JSVal) (k : Nat), x ∉ pre →
      indexOfFrom x (pre ++ x :: post) k = ((k + pre.length : Nat) : Int) := by
  intro pre
  induction pre with
  | nil => intro post k _; simp [indexOfFrom]
  | cons y ys ih =>
    intro post k h
    have hy : y ≠ x := fun e => h (by simp [e])
    have hys : x ∉ ys := fun e => h (by simp [e])
    have step : indexOfFrom x (y :: (ys ++ x :: post)) k
        = indexOfFrom x (ys ++ x :: post) (k + 1) := by
      simp [indexOfFrom, hy]
    rw [List.cons_append, step, ih post (k + 1) hys, List.length_cons]
    congr 1
    omega

theorem splice_split (pre post : List JSVal) (x : JSVal) :
    splice (pre ++ x :: post) ((pre.length : Nat) : Int) 1 = pre ++ post := by
  have h1 : ¬ ((pre.length : Int) < 0) := by omega
  have h2 : (min (pre.length : Int) ((pre ++ x :: post).length : Int)).toNat = pre.length := by
    rw [List.length_append, List.length_cons]
    have : min (pre.length : Int) ((pre.length + (post.length + 1) : Nat) : Int)
        = (pre.length : Int) := by
      apply min_eq_left; omega
    rw [this]; simp
  simp only [splice, h1, if_false, h2]
  simp

theorem removeFirst_split (x : JSVal) :
    ∀ (pre post : List JSVal), x ∉ pre → removeFirst x (pre ++ x :: post) = pre ++ post := by
  intro pre
  induction pre with
  | nil => intro post _; simp [removeFirst]
  | cons y ys ih =>
    intro post h
    have hy : y ≠ x := fun e => h (by simp [e])
    have hys : x ∉ ys := fun e => h (by simp [e])
    simp [removeFirst, hy, ih post hys]

theorem includes_iff (l : List JSVal) (x : JSVal) : includes l x = true ↔ x ∈ l := by
  simp [includes, List.any_eq_true]

theorem includes_eq_decide (l : List JSVal) (x : JSVal) : includes l x = decide (x ∈ l) := by
  by_cases h : x ∈ l
  · simp [h, (includes_iff l x).mpr h]
  · have : includes l x ≠ true := fun e => h ((includes_iff l x).mp e)
    simp [h, this]

/-! ### The selector text -/

theorem readValue_plain (text : List Char) :
    ∀ cs : List Char,
      cs.all (fun c =>
        !(decide (c = '"') || decide (c = '\\') || isCssNewline c || decide (c = '\x00'))) = true →
      readValue text cs = .attributeEquals (String.mk text) := by
  intro cs
  induction cs with
  | nil => intro _; rfl
  | cons c cs ih =>
    intro h
    simp only [List.all_cons, Bool.and_eq_true, Bool.not_eq_true', Bool.or_eq_false_iff,
      decide_eq_false_iff_not] at h
    obtain ⟨⟨⟨⟨h1, h2⟩, h3⟩, h4⟩, hrest⟩ := h
    unfold readValue
    simp only [h1, h2, h3, h4, if_false, Bool.false_eq_true]
    exact ih hrest

theorem readFavIdSelector_plain (text : String) (h : selectorPlain text = true) :
    readFavIdSelector text = .attributeEquals text := by
  unfold readFavIdSelector
  rw [readValue_plain text.toList text.toList h]
  rfl

theorem paintSelected_map (b : Bool) (p : Element → Bool) :
    ∀ els : List Element,
      paintSelected b els (els.map p)
        = els.map (fun e => if p e then updateButtonStyle e b else e) := by
  intro els
  induction els with
  | nil => rfl
  | cons e es ih => simp [paintSelected, ih]

theorem updateButtons_plain (B : Browser) (path : String) (els : List Element) (id : JSVal)
    (b : Bool) (h : selectorPlain id.toText = true) :
    updateButtons B path els id b = .returned (repaintedElements path els id b) := by
  unfold updateButtons querySelectorAllFavId
  rw [readFavIdSelector_plain _ h]
  simp only [paintSelected_map, repaintedElements]

/-! ### `toggle` on the list -/

theorem toggle_favorites (B : Browser) (s : State) (x : JSVal) :
    (toggle B s x).2.favorites
      = if decide (indexOf s.favorites x = -1) then push s.favorites x
        else splice s.favorites (indexOf s.favorites x) 1 := by
  unfold toggle
  dsimp only
  split <;> rfl

theorem toggle_storage (B : Browser) (s : State) (x : JSVal) :
    (toggle B s x).2.storage = some (JSON_stringify (toggle B s x).2.favorites) := by
  unfold toggle
  dsimp only
  split <;> rfl

theorem toggle_path (B : Browser) (s : State) (x : JSVal) : (toggle B s x).2.path = s.path := by
  unfold toggle
  dsimp only
  split <;> rfl

theorem indexOf_eq_neg_one_iff (l : List JSVal) (x : JSVal) : indexOf l x = -1 ↔ x ∉ l := by
  constructor
  · intro h hx
    obtain ⟨pre, post, hl, hpre⟩ := List.eq_append_cons_of_mem hx
    rw [indexOf, hl, indexOfFrom_split x pre post 0 hpre] at h
    omega
  · exact indexOfFrom_of_not_mem x l 0

theorem toggle_completion (B : Browser) (s : State) (x : JSVal) (b : Bool)
    (h : (toggle B s x).1 = .returned b) : b = decide (x ∉ s.favorites) := by
  unfold toggle at h
  dsimp only at h
  cases hu : updateButtons B s.path s.elements x (decide (indexOf s.favorites x = -1)) with
  | threw e => rw [hu] at h; simp at h
  | returned els =>
    rw [hu] at h
    simp only [Completion.returned.injEq] at h
    rw [← h]
    by_cases hx : x ∈ s.favorites
    · have : ¬ indexOf s.favorites x = -1 := fun e => (indexOf_eq_neg_one_iff _ _).mp e hx
      simp [hx, this]
    · have : indexOf s.favorites x = -1 := (indexOf_eq_neg_one_iff _ _).mpr hx
      simp [hx, this]

theorem toggle_plain (B : Browser) (s : State) (x : JSVal) (h : selectorPlain x.toText = true) :
    (toggle B s x).1 = .returned (decide (x ∉ s.favorites))
    ∧ (toggle B s x).2.elements
        = repaintedElements s.path s.elements x (decide (x ∉ s.favorites)) := by
  have hb : decide (indexOf s.favorites x = -1) = decide (x ∉ s.favorites) := by
    by_cases hx : x ∈ s.favorites
    · have : ¬ indexOf s.favorites x = -1 := fun e => (indexOf_eq_neg_one_iff _ _).mp e hx
      simp [hx, this]
    · have : indexOf s.favorites x = -1 := (indexOf_eq_neg_one_iff _ _).mpr hx
      simp [hx, this]
  unfold toggle
  dsimp only
  rw [updateButtons_plain B _ _ _ _ h, hb]
  exact ⟨rfl, rfl⟩

theorem toggle_absent (B : Browser) (s : State) (x : JSVal) (h : x ∉ s.favorites) :
    (toggle B s x).2.favorites = s.favorites ++ [x] := by
  have hi : indexOf s.favorites x = -1 := indexOfFrom_of_not_mem x _ 0 h
  rw [toggle_favorites]
  simp [hi, push]

theorem toggle_present (B : Browser) (s : State) (x : JSVal) (pre post : List JSVal)
    (hl : s.favorites = pre ++ x :: post) (hpre : x ∉ pre) :
    (toggle B s x).2.favorites = pre ++ post := by
  have hi : indexOf s.favorites x = ((pre.length : Nat) : Int) := by
    rw [indexOf, hl, indexOfFrom_split x pre post 0 hpre]; simp
  have hne : ¬ (((pre.length : Nat) : Int) = -1) := by omega
  have hs := splice_split pre post x
  rw [toggle_favorites]
  simp only [hi, hne, decide_False]
  rw [hl, hs]
  simp

theorem toggle_nodup (B : Browser) (s : State) (x : JSVal) (h : s.favorites.Nodup) :
    (toggle B s x).2.favorites.Nodup := by
  by_cases hx : x ∈ s.favorites
  · obtain ⟨pre, post, hl, hpre⟩ := List.eq_append_cons_of_mem hx
    rw [toggle_present B s x pre post hl hpre]
    rw [hl] at h
    exact (List.nodup_cons.mp (List.nodup_middle.mp h)).2
  · rw [toggle_absent B s x hx]
    exact List.nodup_append.mpr ⟨h, List.nodup_singleton x, by
      intro a ha hb
      simp at hb
      exact hx (hb ▸ ha)⟩

/-- C1, counterexample: for the id `a"b` the selector text that `updateButtons`
builds is `[data-fav-id="a"b"]`, which is not a valid selector, so `toggle`
puts the id in the list, saves the list, and then throws instead of returning
`true`. -/
theorem toggle_throws_on_quote :
    readFavIdSelector "a\"b" = .invalid
    ∧ toggle quietBrowser (stateOf []) (.str "a\"b")
      = (.threw .DOMSyntaxError,
          { favorites := [.str "a\"b"], storage := some "[\"a\\\"b\"]",
            path := "/index.html", elements := [] })
    ∧ (toggle quietBrowser (stateOf []) (.str "a\"b")).1
        ≠ .returned (toggleReference (stateOf []).favorites (.str "a\"b")).1 := by
  decide

/-- C1, amended: for every list and id the list `toggle` leaves is the one of the
reference definition: when the id occurs in the list, the list without the
first occurrence of the id (the other entries kept in their order), and when it
does not occur, the list followed by the id. Whenever `toggle` returns, it
returns the boolean of the reference definition, `false` in the first case and
`true` in the second; and it does return, with that boolean, for every id whose
text holds no double quote, backslash, line break or NUL, whatever the
browser. -/
theorem toggle_eq_reference (B : Browser) (s : State) (x : JSVal) :
    (toggle B s x).2.favorites = (toggleReference s.favorites x).2
    ∧ (x ∈ s.favorites → ∃ pre post, s.favorites = pre ++ x :: post ∧ x ∉ pre
        ∧ (toggleReference s.favorites x).1 = false
        ∧ (toggle B s x).2.favorites = pre ++ post)
    ∧ (x ∉ s.favorites →
        (toggleReference s.favorites x).1 = true
        ∧ (toggle B s x).2.favorites = s.favorites ++ [x])
    ∧ (∀ b : Bool, (toggle B s x).1 = .returned b → b = (toggleReference s.favorites x).1)
    ∧ (selectorPlain x.toText = true →
        (toggle B s x).1 = .returned (toggleReference s.favorites x).1) := by
  have href : (toggleReference s.favorites x).1 = decide (x ∉ s.favorites) := by
    by_cases hx : x ∈ s.favorites <;> simp [toggleReference, hx]
  refine ⟨?_, ?_, ?_, ?_, ?_⟩
  · by_cases hx : x ∈ s.favorites
    · obtain ⟨pre, post, hl, hpre⟩ := List.eq_append_cons_of_mem hx
      rw [toggle_present B s x pre post hl hpre, toggleReference, if_pos hx, hl,
        removeFirst_split x pre post hpre]
    · rw [toggle_absent B s x hx, toggleReference, if_neg hx]
  · intro hx
    obtain ⟨pre, post, hl, hpre⟩ := List.eq_append_cons_of_mem hx
    exact ⟨pre, post, hl, hpre, by simp [toggleReference, hx],
      toggle_present B s x pre post hl hpre⟩
  · intro hx
    exact ⟨by simp [toggleReference, hx], toggle_absent B s x hx⟩
  · intro b hb
    rw [href]
    exact toggle_completion B s x b hb
  · intro hplain
    rw [href]
    exact (toggle_plain B s x hplain).1

end NakhonSi

namespace NakhonSi

open FavoritesManager

/-! ### Double toggle -/

/-- C2, counterexample: on the list `["1","2"]` two toggles of `"1"` leave
`["2","1"]`, so the stored serialization is not the original one; and on the
list `["1","1"]`, where `"1"` is a favorite, two toggles of `"1"` leave the
empty list, where it is not. -/
theorem double_toggle_reorders :
    (toggle quietBrowser (toggle quietBrowser (stateOf [.str "1", .str "2"]) (.str "1")).2
        (.str "1")).2.favorites = [.str "2", .str "1"]
    ∧ (toggle quietBrowser (toggle quietBrowser (stateOf [.str "1", .str "2"]) (.str "1")).2
        (.str "1")).2.storage = some "[\"2\",\"1\"]"
    ∧ (stateOf [.str "1", .str "2"]).storage = some "[\"1\",\"2\"]"
    ∧ (toggle quietBrowser (toggle quietBrowser (stateOf [.str "1", .str "2"]) (.str "1")).2
        (.str "1")).2.storage ≠ (stateOf [.str "1", .str "2"]).storage
    ∧ isFavorite (stateOf [.str "1", .str "1"]) (.str "1") = true
    ∧ isFavorite
        (toggle quietBrowser (toggle quietBrowser (stateOf [.str "1", .str "1"]) (.str "1")).2
          (.str "1")).2 (.str "1") = false := by
  decide

theorem toggle_twice_absent (B : Browser) (s : State) (x : JSVal) (hx : x ∉ s.favorites) :
    (toggle B (toggle B s x).2 x).2.favorites = s.favorites := by
  have h1 := toggle_absent B s x hx
  have h2 := toggle_present B (toggle B s x).2 x s.favorites [] (by rw [h1]) hx
  simpa using h2

theorem not_mem_of_count_le_one (x : JSVal) (pre post : List JSVal)
    (h : (pre ++ x :: post).count x ≤ 1) : x ∉ pre ++ post := by
  rw [List.count_append, List.count_cons_self] at h
  have h1 : pre.count x = 0 := by omega
  have h2 : post.count x = 0 := by omega
  intro hmem
  rcases List.mem_append.mp hmem with hm | hm
  · exact (List.count_eq_zero.mp h1) hm
  · exact (List.count_eq_zero.mp h2) hm

theorem toggle_count_le_one (B : Browser) (s : State) (x : JSVal)
    (h : s.favorites.count x ≤ 1) : (toggle B s x).2.favorites.count x ≤ 1 := by
  by_cases hx : x ∈ s.favorites
  · obtain ⟨pre, post, hl, hpre⟩ := List.eq_append_cons_of_mem hx
    rw [toggle_present B s x pre post hl hpre]
    rw [hl] at h
    have := List.count_eq_zero.mpr (not_mem_of_count_le_one x pre post h)
    omega
  · rw [toggle_absent B s x hx, List.count_append]
    have := List.count_eq_zero.mpr hx
    simp [this]

theorem toggle_twice_present (B : Browser) (s : State) (x : JSVal) (pre post : List JSVal)
    (hl : s.favorites = pre ++ x :: post) (hone : s.favorites.count x ≤ 1) :
    (toggle B (toggle B s x).2 x).2.favorites = pre ++ post ++ [x] := by
  rw [hl] at hone
  have hnot : x ∉ pre ++ post := not_mem_of_count_le_one x pre post hone
  have hpre : x ∉ pre := fun h => hnot (List.mem_append_left _ h)
  have h1 := toggle_present B s x pre post hl hpre
  have h2 := toggle_absent B (toggle B s x).2 x (by rw [h1]; exact hnot)
  rw [h2, h1]

/-- C2, amended: for every favorites list that holds the id at most once, as
every duplicate-free list does, two toggles of the id restore the original
answer of `isFavorite` and leave a list with the same entries as the original
one; when the id was absent, or was the last entry of the list, they restore
the list itself and the stored serialization `JSON.stringify` wrote for it;
when the id stood anywhere in the list, the list they leave is the original
one with the id moved to the end, and the stored text is the serialization of
that list. -/
theorem double_toggle_restores (B : Browser) (s : State) (x : JSVal)
    (hone : s.favorites.count x ≤ 1) :
    isFavorite (toggle B (toggle B s x).2 x).2 x = isFavorite s x
    ∧ (toggle B (toggle B s x).2 x).2.favorites.Perm s.favorites
    ∧ ((x ∉ s.favorites ∨ s.favorites.getLast? = some x) →
        (toggle B (toggle B s x).2 x).2.favorites = s.favorites
        ∧ (toggle B (toggle B s x).2 x).2.storage = some (JSON_stringify s.favorites))
    ∧ (∀ pre post : List JSVal, s.favorites = pre ++ x :: post →
        (toggle B (toggle B s x).2 x).2.favorites = pre ++ post ++ [x]
        ∧ (toggle B (toggle B s x).2 x).2.storage
            = some (JSON_stringify (pre ++ post ++ [x]))) := by
  have hmoved : ∀ pre post : List JSVal, s.favorites = pre ++ x :: post →
      (toggle B (toggle B s x).2 x).2.favorites = pre ++ post ++ [x]
      ∧ (toggle B (toggle B s x).2 x).2.storage
          = some (JSON_stringify (pre ++ post ++ [x])) := by
    intro pre post hl
    have h2 := toggle_twice_present B s x pre post hl hone
    exact ⟨h2, by rw [toggle_storage, h2]⟩
  by_cases hx : x ∈ s.favorites
  · obtain ⟨pre, post, hl, _⟩ := List.eq_append_cons_of_mem hx
    have h2 := toggle_twice_present B s x pre post hl hone
    have hperm : (pre ++ post ++ [x]).Perm (pre ++ x :: post) := by
      rw [List.append_assoc]
      exact List.Perm.append_left pre (List.perm_append_singleton x post)
    refine ⟨?_, ?_, ?_, hmoved⟩
    · rw [isFavorite, isFavorite, includes_eq_decide, includes_eq_decide, h2]
      simp [hx]
    · rw [h2, hl]; exact hperm
    · intro h
      have hlast : s.favorites.getLast? = some x := by
        rcases h with h | h
        · exact absurd hx h
        · exact h
      have hpost : post = [] := by
        cases post with
        | nil => rfl
        | cons p ps =>
          exfalso
          rw [hl] at hlast hone
          have hmem : x ∈ p :: ps := by
            have h3 : (pre ++ x :: p :: ps).getLast? = (p :: ps).getLast? := by
              rw [List.getLast?_append, List.getLast?_cons_cons,
                List.getLast?_eq_getLast (p :: ps) (List.cons_ne_nil p ps)]
              rfl
            rw [h3] at hlast
            exact List.mem_of_getLast?_eq_some hlast
          have hnot : x ∉ pre ++ (p :: ps) := not_mem_of_count_le_one x pre (p :: ps) hone
          exact hnot (List.mem_append_right _ hmem)
      have hfav : (toggle B (toggle B s x).2 x).2.favorites = s.favorites := by
        rw [h2, hl, hpost]; simp
      exact ⟨hfav, by rw [toggle_storage, hfav]⟩
  · have h2 := toggle_twice_absent B s x hx
    refine ⟨?_, ?_, ?_, hmoved⟩
    · rw [isFavorite, isFavorite, h2]
    · rw [h2]
    · intro _
      exact ⟨h2, by rw [toggle_storage, h2]⟩

/-- C2, amended, at the list `["1","2"]` and the id `"2"`, its last entry. -/
theorem double_toggle_restores_witness :
    (stateOf [.str "1", .str "2"]).favorites.count (.str "2") ≤ 1
    ∧ isFavorite
        (toggle quietBrowser (toggle quietBrowser (stateOf [.str "1", .str "2"]) (.str "2")).2
          (.str "2")).2 (.str "2") = isFavorite (stateOf [.str "1", .str "2"]) (.str "2")
    ∧ (toggle quietBrowser (toggle quietBrowser (stateOf [.str "1", .str "2"]) (.str "2")).2
        (.str "2")).2.favorites.Perm (stateOf [.str "1", .str "2"]).favorites :=
  ⟨by decide,
    (double_toggle_restores quietBrowser (stateOf [.str "1", .str "2"]) (.str "2")
      (by decide)).1,
    (double_toggle_restores quietBrowser (stateOf [.str "1", .str "2"]) (.str "2")
      (by decide)).2.1⟩

end NakhonSi

namespace NakhonSi

open FavoritesManager

/-! ### Invariants of `toggle` -/

theorem toggleAll_nodup (B : Browser) (ids : List JSVal) :
    ∀ s : State, s.favorites.Nodup → (toggleAll B s ids).favorites.Nodup := by
  induction ids with
  | nil => intro s h; exact h
  | cons id rest ih => intro s h; exact ih _ (toggle_nodup B s id h)

/-- C3: no-duplicates is an invariant of `toggle`. From every duplicate-free
favorites list, whatever ids a finite sequence of `toggle` calls is given, the
list after each call of the sequence (after its first `k` calls, for every `k`)
holds no id twice. -/
theorem toggle_preserves_nodup (B : Browser) (s : State) (hnd : s.favorites.Nodup)
    (ids : List JSVal) (k : Nat) : (toggleAll B s (ids.take k)).favorites.Nodup :=
  toggleAll_nodup B (ids.take k) s hnd

/-- C3 at the empty list of a fresh store, toggling `"1"`, `"1"`, `"2"`, `null`. -/
theorem toggle_preserves_nodup_witness :
    (stateOf []).favorites.Nodup
    ∧ (toggleAll quietBrowser (stateOf [])
        ([JSVal.str "1", JSVal.str "1", JSVal.str "2", JSVal.null].take 3)).favorites.Nodup :=
  ⟨by decide,
    toggle_preserves_nodup quietBrowser (stateOf []) (by decide)
      [JSVal.str "1", JSVal.str "1", JSVal.str "2", JSVal.null] 3⟩

/-- C4, counterexample: the stored content `["1","1"]` is loaded as the list
`["1","1"]`, and on that list `toggle("1")` removes one of the two entries and
returns `false` while `"1"` is still a favorite after the call; and for the id
`a"b` on the empty list `toggle` throws, so that no value is returned, while
the id is a favorite after the call. -/
theorem toggle_result_with_duplicates :
    load (some "[\"1\",\"1\"]") = .ok (.arr ([JSVal.str "1", JSVal.str "1"].map JSVal.toJson))
    ∧ (toggle quietBrowser (stateOf [.str "1", .str "1"]) (.str "1")).1 = .returned false
    ∧ isFavorite (toggle quietBrowser (stateOf [.str "1", .str "1"]) (.str "1")).2 (.str "1")
        = true
    ∧ (toggle quietBrowser (stateOf []) (.str "a\"b")).1 = .threw .DOMSyntaxError
    ∧ isFavorite (toggle quietBrowser (stateOf []) (.str "a\"b")).2 (.str "a\"b") = true :=
  ⟨rfl, by decide, by decide, by decide, by decide⟩

theorem toggle_result_after (B : Browser) (s : State) (x : JSVal)
    (hone : s.favorites.count x ≤ 1) :
    decide (x ∉ s.favorites) = isFavorite (toggle B s x).2 x := by
  rw [isFavorite, includes_eq_decide]
  by_cases hx : x ∈ s.favorites
  · obtain ⟨pre, post, hl, hpre⟩ := List.eq_append_cons_of_mem hx
    have h2 := toggle_present B s x pre post hl hpre
    rw [hl] at hone
    have hnot : x ∉ pre ++ post := not_mem_of_count_le_one x pre post hone
    rw [h2]; simp [hx, hnot]
  · have h2 := toggle_absent B s x hx
    rw [h2]; simp [hx]

theorem not_mem_eq_not_isFavorite (s : State) (x : JSVal) :
    decide (x ∉ s.favorites) = !isFavorite s x := by
  rw [isFavorite, includes_eq_decide]
  by_cases hx : x ∈ s.favorites <;> simp [hx]

theorem toggleAll_replicate_succ (B : Browser) (x : JSVal) (n : Nat) :
    ∀ s : State, toggleAll B s (List.replicate (n + 1) x)
      = (toggle B (toggleAll B s (List.replicate n x)) x).2 := by
  induction n with
  | zero => intro s; rfl
  | succ m ih =>
    intro s
    have h := ih (toggle B s x).2
    simpa [List.replicate, toggleAll] using h

theorem toggleAll_replicate_count (B : Browser) (x : JSVal) (n : Nat) :
    ∀ s : State, s.favorites.count x ≤ 1 →
      (toggleAll B s (List.replicate n x)).favorites.count x ≤ 1 := by
  induction n with
  | zero => intro s h; exact h
  | succ m ih => intro s h; exact ih (toggle B s x).2 (toggle_count_le_one B s x h)

/-- C4, amended: for every favorites list that holds the id at most once, as
every duplicate-free list does, and every id whose text holds no double quote,
backslash, line break or NUL, `toggle` returns, and the value it returns is
`isFavorite` of the id after the call and the negation of `isFavorite` of the
id before the call; each further toggle of the same id flips its membership
again. For every list whatsoever and every such id the returned value is the
negation of `isFavorite` before the call. -/
theorem toggle_returns_new_status (B : Browser) (s : State) (x : JSVal)
    (hone : s.favorites.count x ≤ 1) (hplain : selectorPlain x.toText = true) :
    (toggle B s x).1 = .returned (isFavorite (toggle B s x).2 x)
    ∧ (toggle B s x).1 = .returned (!isFavorite s x)
    ∧ (∀ n : Nat, isFavorite (toggleAll B s (List.replicate (n + 1) x)) x
        = !isFavorite (toggleAll B s (List.replicate n x)) x)
    ∧ (∀ (t : State) (y : JSVal), selectorPlain y.toText = true →
        (toggle B t y).1 = .returned (!isFavorite t y)) := by
  have hbefore : ∀ (t : State) (y : JSVal), selectorPlain y.toText = true →
      (toggle B t y).1 = .returned (!isFavorite t y) := by
    intro t y hy
    rw [(toggle_plain B t y hy).1, not_mem_eq_not_isFavorite]
  refine ⟨?_, hbefore s x hplain, ?_, hbefore⟩
  · rw [(toggle_plain B s x hplain).1, toggle_result_after B s x hone]
  · intro n
    have hn : (toggleAll B s (List.replicate n x)).favorites.count x ≤ 1 :=
      toggleAll_replicate_count B x n s hone
    rw [toggleAll_replicate_succ B x n s, ← toggle_result_after B _ x hn,
      not_mem_eq_not_isFavorite]

/-- C4, amended, at the list `["1","2"]` and the id `"1"`. -/
theorem toggle_returns_new_status_witness :
    (stateOf [.str "1", .str "2"]).favorites.count (.str "1") ≤ 1
    ∧ selectorPlain (JSVal.str "1").toText = true
    ∧ (toggle quietBrowser (stateOf [.str "1", .str "2"]) (.str "1")).1
        = .returned (isFavorite (toggle quietBrowser (stateOf [.str "1", .str "2"]) (.str "1")).2
            (.str "1"))
    ∧ (toggle quietBrowser (stateOf [.str "1", .str "2"]) (.str "1")).1
        = .returned (!isFavorite (stateOf [.str "1", .str "2"]) (.str "1")) :=
  ⟨by decide, by decide,
    (toggle_returns_new_status quietBrowser (stateOf [.str "1", .str "2"]) (.str "1")
      (by decide) (by decide)).1,
    (toggle_returns_new_status quietBrowser (stateOf [.str "1", .str "2"]) (.str "1")
      (by decide) (by decide)).2.1⟩

theorem toggleAll_storage (B : Browser) (ids : List JSVal) :
    ∀ (s : State) (id : JSVal), (toggleAll B s (id :: ids)).storage
      = some (JSON_stringify (toggleAll B s (id :: ids)).favorites) := by
  induction ids with
  | nil => intro s id; exact toggle_storage B s id
  | cons next rest ih => intro s id; exact ih (toggle B s id).2 next

/-- C5: write-through. After every `toggle` call the string stored under the
key is the serialization of the in-memory list as it stands when `toggle`
returns: after one call on any state, on the branch that appends as on the
branch that removes, and after the last call of any non-empty sequence of
calls. -/
theorem toggle_write_through (B : Browser) (s : State) (x : JSVal) :
    (toggle B s x).2.storage = some (JSON_stringify (toggle B s x).2.favorites)
    ∧ (toggle B s x).2.storage = save (toggle B s x).2.favorites
    ∧ (∀ ids : List JSVal, (toggleAll B s (x :: ids)).storage
        = some (JSON_stringify (toggleAll B s (x :: ids)).favorites)) :=
  ⟨toggle_storage B s x, toggle_storage B s x, fun ids => toggleAll_storage B ids s x⟩

end NakhonSi

namespace NakhonSi

open FavoritesManager

/-! ### Unresolved ids -/

/-- C7, counterexample: `toggle(null)` on the empty list returns `true`, puts
`null` in the list and writes `[null]` under the key; `toggle(undefined)` does
the same with `undefined`. -/
theorem toggle_null_inserts :
    toggle quietBrowser (pageOf "/index.html" []) .null
      = (.returned true,
          { favorites := [.null], storage := some "[null]", path := "/index.html",
            elements := [] })
    ∧ (toggle quietBrowser (pageOf "/index.html" []) .null).2.favorites
        ≠ (pageOf "/index.html" []).favorites
    ∧ (toggle quietBrowser (pageOf "/index.html" []) .null).2.storage
        ≠ (pageOf "/index.html" []).storage
    ∧ JSVal.null ∈ (toggle quietBrowser (pageOf "/index.html" []) .null).2.favorites
    ∧ toggle quietBrowser (pageOf "/index.html" []) .undefined
      = (.returned true,
          { favorites := [.undefined], storage := some "[null]", path := "/index.html",
            elements := [] }) := by
  decide

theorem truthy_is_string (id : JSVal) (h : id.truthy = true) : ∃ t, id = .str t ∧ t ≠ "" := by
  cases id with
  | undefined => simp [JSVal.truthy] at h
  | null => simp [JSVal.truthy] at h
  | str t => exact ⟨t, rfl, by simpa [JSVal.truthy] using h⟩

theorem initButton_listener (favorites : List JSVal) (path : String) (btn : Element)
    (id : JSVal) (h : (initButton favorites path btn).2 = some id) : id.truthy = true := by
  unfold initButton at h
  by_cases hs : selected btn = true
  · by_cases ht : (resolveId path btn).truthy = true
    · simp only [hs, ht, if_true] at h
      cases h
      exact ht
    · simp [hs, ht] at h
  · simp [hs] at h

theorem initUI_listeners (s : State) :
    (initUI s).2 = s.elements.map (fun btn => (initButton s.favorites s.path btn).2) := by
  simp [initUI, List.map_map, Function.comp_def]

theorem toggle_entries (B : Browser) (s : State) (x v : JSVal)
    (hv : v ∈ (toggle B s x).2.favorites) : v ∈ s.favorites ∨ v = x := by
  by_cases hx : x ∈ s.favorites
  · obtain ⟨pre, post, hl, hpre⟩ := List.eq_append_cons_of_mem hx
    rw [toggle_present B s x pre post hl hpre] at hv
    left
    rw [hl]
    rcases List.mem_append.mp hv with h | h
    · exact List.mem_append_left _ h
    · exact List.mem_append_right _ (List.mem_cons_of_mem _ h)
  · rw [toggle_absent B s x hx] at hv
    rcases List.mem_append.mp hv with h | h
    · exact Or.inl h
    · exact Or.inr (by simpa using h)

theorem clickAll_entries (B : Browser) (listeners : List (Option JSVal))
    (hl : ∀ id, some id ∈ listeners → id.truthy = true) (is : List Nat) :
    ∀ s : State, (∀ v ∈ s.favorites, v ≠ .null ∧ v ≠ .undefined) →
      ∀ v ∈ (clickAll B listeners s is).favorites, v ≠ .null ∧ v ≠ .undefined := by
  induction is with
  | nil => intro s h; exact h
  | cons i rest ih =>
    intro s h
    apply ih
    intro v hv
    unfold click at hv
    cases hget : listeners[i]? with
    | none => rw [hget] at hv; exact h v hv
    | some l =>
      cases l with
      | none => rw [hget] at hv; exact h v hv
      | some id =>
        rw [hget] at hv
        rcases toggle_entries B s id v hv with h1 | h1
        · exact h v h1
        · have hmem : some id ∈ listeners := List.getElem?_mem hget
          obtain ⟨t, ht, _⟩ := truthy_is_string id (hl id hmem)
          rw [h1, ht]
          exact ⟨by simp, by simp⟩

/-- C7, amended: the page never calls `toggle` with an unresolved id. `initUI`
registers a click listener only with an id that is a non-empty string, and
leaves without listener every element whose id comes out `null`, `undefined`
or empty; a click on an element without listener changes neither the list nor
the stored value; and no sequence of clicks puts `null` or `undefined` into a
list that holds neither. -/
theorem initUI_binds_resolved_ids (B : Browser) (s : State) :
    (∀ id, some id ∈ (initUI s).2 → ∃ t, id = .str t ∧ t ≠ "")
    ∧ (∀ (i : Nat) (btn : Element), s.elements[i]? = some btn →
        (resolveId s.path btn).truthy = false → (initUI s).2[i]? = some none)
    ∧ (∀ (i : Nat) (t : State), (initUI s).2[i]? = some none → click B (initUI s).2 t i = t)
    ∧ (∀ is : List Nat, (∀ v ∈ s.favorites, v ≠ .null ∧ v ≠ .undefined) →
        ∀ v ∈ (clickAll B (initUI s).2 (initUI s).1 is).favorites,
          v ≠ .null ∧ v ≠ .undefined) := by
  have hl : ∀ id, some id ∈ (initUI s).2 → id.truthy = true := by
    intro id hid
    rw [initUI_listeners] at hid
    obtain ⟨btn, _, hb⟩ := List.mem_map.mp hid
    exact initButton_listener s.favorites s.path btn id hb
  refine ⟨fun id hid => truthy_is_string id (hl id hid), ?_, ?_, ?_⟩
  · intro i btn hbtn hres
    rw [initUI_listeners, List.getElem?_map, hbtn]
    simp [initButton, hres]
  · intro i t hi
    simp [click, hi]
  · intro is hfav
    exact clickAll_entries B (initUI s).2 hl is (initUI s).1 hfav

end NakhonSi

namespace NakhonSi

open FavoritesManager

/-! ### The pattern `destination(\d+)\.html` -/

theorem matchLiteral_iff (p : List Char) :
    ∀ (cs r : List Char), matchLiteral p cs = some r ↔ cs = p ++ r := by
  induction p with
  | nil => intro cs r; simp [matchLiteral, eq_comm]
  | cons a p ih =>
    intro cs r
    cases cs with
    | nil => simp [matchLiteral]
    | cons c cs =>
      by_cases h : a = c
      · subst h; simp [matchLiteral, ih]
      · have h2 : ¬ c = a := fun e => h e.symm
        simp [matchLiteral, h, h2]

theorem matchDigitsHtml_sound :
    ∀ (cs ds : List Char), matchDigitsHtml cs = some ds →
      ds ≠ [] ∧ (∀ c ∈ ds, isDigit c = true) ∧ ∃ post, cs = ds ++ (".html".toList ++ post) := by
  intro cs
  induction cs with
  | nil => intro ds h; simp [matchDigitsHtml] at h
  | cons c cs ih =>
    intro ds h
    unfold matchDigitsHtml at h
    by_cases hc : isDigit c = true
    · simp only [hc, if_true] at h
      cases hrec : matchDigitsHtml cs with
      | some ds2 =>
        rw [hrec] at h
        simp only [Option.some.injEq] at h
        obtain ⟨_, hd, post, hpost⟩ := ih ds2 hrec
        subst h
        refine ⟨by simp, ?_, post, by rw [hpost]; rfl⟩
        intro x hx
        rcases List.mem_cons.mp hx with e | e
        · rw [e]; exact hc
        · exact hd x e
      | none =>
        rw [hrec] at h
        cases hlit : matchLiteral ".html".toList cs with
        | some r =>
          rw [hlit] at h
          simp only [Option.some.injEq] at h
          subst h
          refine ⟨by simp, ?_, r, ?_⟩
          · intro x hx
            rw [List.mem_singleton.mp hx]; exact hc
          · rw [(matchLiteral_iff _ cs r).mp hlit]; rfl
        | none => rw [hlit] at h; simp at h
    · simp [hc] at h

theorem matchDigitsHtml_at_dot (post : List Char) :
    matchDigitsHtml (".html".toList ++ post) = none := by
  show matchDigitsHtml ('.' :: ("html".toList ++ post)) = none
  unfold matchDigitsHtml
  have : isDigit '.' = false := by decide
  simp [this]

theorem matchDigitsHtml_complete :
    ∀ (ds post : List Char), ds ≠ [] → (∀ c ∈ ds, isDigit c = true) →
      matchDigitsHtml (ds ++ (".html".toList ++ post)) = some ds := by
  intro ds
  induction ds with
  | nil => intro post h; exact absurd rfl h
  | cons d ds ih =>
    intro post _ hd
    have hdig : isDigit d = true := hd d (List.mem_cons_self _ _)
    rw [List.cons_append]
    unfold matchDigitsHtml
    simp only [hdig, if_true]
    cases ds with
    | nil =>
      rw [List.nil_append, matchDigitsHtml_at_dot post]
      have : matchLiteral ".html".toList (".html".toList ++ post) = some post :=
        (matchLiteral_iff _ _ _).mpr rfl
      rw [this]
    | cons e es =>
      have hrec := ih post (List.cons_ne_nil e es)
        (fun c hc => hd c (List.mem_cons_of_mem _ hc))
      rw [hrec]

theorem matchHere_iff (cs ds : List Char) :
    matchHere cs = some ds ↔ OccursAt cs 0 ds := by
  constructor
  · intro h
    unfold matchHere at h
    cases hlit : matchLiteral "destination".toList cs with
    | none => rw [hlit] at h; simp at h
    | some rest =>
      rw [hlit] at h
      obtain ⟨hne, hd, post, hpost⟩ := matchDigitsHtml_sound rest ds h
      refine ⟨[], post, rfl, ?_, hne, hd⟩
      rw [(matchLiteral_iff _ cs rest).mp hlit, hpost]; rfl
  · rintro ⟨pre, post, hlen, htext, hne, hd⟩
    have hpre : pre = [] := List.length_eq_zero.mp hlen
    subst hpre
    rw [List.nil_append] at htext
    unfold matchHere
    have : matchLiteral "destination".toList cs = some (ds ++ (".html".toList ++ post)) :=
      (matchLiteral_iff _ _ _).mpr htext
    rw [this]
    exact matchDigitsHtml_complete ds post hne hd

theorem occursAt_cons (c : Char) (cs : List Char) (k : Nat) (ds : List Char) :
    OccursAt (c :: cs) (k + 1) ds ↔ OccursAt cs k ds := by
  constructor
  · rintro ⟨pre, post, hlen, htext, hne, hd⟩
    cases pre with
    | nil => simp at hlen
    | cons p pre =>
      rw [List.cons_append] at htext
      injection htext with _ htail
      exact ⟨pre, post, by simpa using hlen, htail, hne, hd⟩
  · rintro ⟨pre, post, hlen, htext, hne, hd⟩
    exact ⟨c :: pre, post, by simp [hlen], by rw [htext]; rfl, hne, hd⟩

theorem regexMatch_some :
    ∀ (cs ds : List Char), regexMatch cs = some ds →
      ∃ k, OccursAt cs k ds ∧ ∀ k2 ds2, OccursAt cs k2 ds2 → k ≤ k2 := by
  intro cs
  induction cs with
  | nil => intro ds h; simp [regexMatch] at h
  | cons c cs ih =>
    intro ds h
    unfold regexMatch at h
    cases hm : matchHere (c :: cs) with
    | some ds1 =>
      rw [hm] at h
      simp only [Option.some.injEq] at h
      subst h
      exact ⟨0, (matchHere_iff _ _).mp hm, fun _ _ _ => Nat.zero_le _⟩
    | none =>
      rw [hm] at h
      obtain ⟨k, hk, hmin⟩ := ih ds h
      refine ⟨k + 1, (occursAt_cons c cs k ds).mpr hk, ?_⟩
      intro k2 ds2 h2
      cases k2 with
      | zero =>
        have := (matchHere_iff _ _).mpr h2
        rw [hm] at this
        simp at this
      | succ j =>
        have := hmin j ds2 ((occursAt_cons c cs j ds2).mp h2)
        omega

theorem regexMatch_none :
    ∀ (cs : List Char), regexMatch cs = none → ∀ k ds, ¬ OccursAt cs k ds := by
  intro cs
  induction cs with
  | nil =>
    intro _ k ds h
    obtain ⟨pre, post, _, htext, _, _⟩ := h
    have := congrArg List.length htext
    simp at this
    omega
  | cons c cs ih =>
    intro h k ds hocc
    unfold regexMatch at h
    cases hm : matchHere (c :: cs) with
    | some ds1 => rw [hm] at h; simp at h
    | none =>
      rw [hm] at h
      cases k with
      | zero =>
        have := (matchHere_iff _ _).mpr hocc
        rw [hm] at this
        simp at this
      | succ j => exact ih h j ds ((occursAt_cons c cs j ds).mp hocc)

end NakhonSi

namespace NakhonSi

open FavoritesManager

theorem occursAt_unique :
    ∀ (cs : List Char) (k : Nat) (d1 d2 : List Char),
      OccursAt cs k d1 → OccursAt cs k d2 → d1 = d2 := by
  intro cs
  induction cs with
  | nil =>
    intro k d1 d2 h1 _
    exact absurd h1 (regexMatch_none [] rfl k d1)
  | cons c cs ih =>
    intro k d1 d2 h1 h2
    cases k with
    | zero =>
      have e1 := (matchHere_iff _ _).mpr h1
      have e2 := (matchHere_iff _ _).mpr h2
      rw [e1] at e2
      exact Option.some.inj e2
    | succ j =>
      exact ih j d1 d2 ((occursAt_cons c cs j d1).mp h1) ((occursAt_cons c cs j d2).mp h2)

theorem occursAt_append_left (pre cs : List Char) (k : Nat) (ds : List Char)
    (h : OccursAt cs k ds) : OccursAt (pre ++ cs) (pre.length + k) ds := by
  obtain ⟨p, post, hlen, htext, hne, hd⟩ := h
  exact ⟨pre ++ p, post, by simp [hlen], by rw [htext, List.append_assoc], hne, hd⟩

theorem lastSegment_suffix : ∀ cs : List Char, ∃ pre, cs = pre ++ lastSegment cs := by
  intro cs
  induction cs with
  | nil => exact ⟨[], rfl⟩
  | cons c cs ih =>
    unfold lastSegment
    by_cases h : '/' ∈ cs
    · obtain ⟨pre, hpre⟩ := ih
      refine ⟨c :: pre, ?_⟩
      simp only [h, if_true]
      rw [List.cons_append, ← hpre]
    · by_cases hc : c = '/'
      · exact ⟨[c], by simp [h, hc]⟩
      · exact ⟨[], by simp [h, hc]⟩

theorem spanDigits_spec : ∀ cs : List Char,
    cs = (spanDigits cs).1 ++ (spanDigits cs).2 ∧ ∀ c ∈ (spanDigits cs).1, isDigit c = true := by
  intro cs
  induction cs with
  | nil => simp [spanDigits]
  | cons c cs ih =>
    unfold spanDigits
    by_cases hc : isDigit c = true
    · simp only [hc, if_true]
      refine ⟨by rw [List.cons_append, ← ih.1], ?_⟩
      intro x hx
      rcases List.mem_cons.mp hx with e | e
      · rw [e]; exact hc
      · exact ih.2 x e
    · simp [hc]

theorem isDestinationFileName_occurs (name : List Char) (h : isDestinationFileName name = true) :
    ∃ ds, OccursAt name 0 ds := by
  unfold isDestinationFileName at h
  cases hlit : matchLiteral "destination".toList name with
  | none => rw [hlit] at h; simp at h
  | some rest =>
    rw [hlit] at h
    simp only [Bool.and_eq_true, Bool.not_eq_true', decide_eq_true_eq] at h
    obtain ⟨hne, htail⟩ := h
    have hspec := spanDigits_spec rest
    refine ⟨(spanDigits rest).1, [], [], rfl, ?_, ?_, hspec.2⟩
    · rw [(matchLiteral_iff _ name rest).mp hlit]
      rw [List.nil_append, List.append_nil, ← htail, ← hspec.1]
    · intro e
      rw [e] at hne
      simp at hne

theorem destinationIdOf_ne_null_iff (text : String) :
    destinationIdOf text ≠ .null ↔ ∃ k ds, OccursAt text.toList k ds := by
  unfold destinationIdOf
  cases hm : regexMatch text.toList with
  | some ds =>
    obtain ⟨k, hk, _⟩ := regexMatch_some _ ds hm
    exact ⟨fun _ => ⟨k, ds, hk⟩, fun _ => by simp⟩
  | none =>
    simp only [ne_eq, not_true_eq_false, false_iff]
    rintro ⟨k, ds, h⟩
    exact regexMatch_none _ hm k ds h

theorem destinationIdOf_eq_str_iff (text N : String) :
    destinationIdOf text = .str N ↔
      ∃ k, OccursAt text.toList k N.toList
        ∧ ∀ k2 ds2, OccursAt text.toList k2 ds2 → k ≤ k2 := by
  unfold destinationIdOf
  cases hm : regexMatch text.toList with
  | some ds =>
    obtain ⟨k, hk, hmin⟩ := regexMatch_some _ ds hm
    constructor
    · intro h
      simp only [JSVal.str.injEq] at h
      subst h
      exact ⟨k, hk, hmin⟩
    · rintro ⟨k2, hk2, hmin2⟩
      have e : k = k2 := Nat.le_antisymm (hmin k2 _ hk2) (hmin2 k _ hk)
      subst e
      have := occursAt_unique _ k _ _ hk hk2
      simp only [JSVal.str.injEq]
      rw [this]
      cases N
      rfl
  | none =>
    constructor
    · intro h; simp at h
    · rintro ⟨k, hk, _⟩
      exact absurd hk (regexMatch_none _ hm k _)

theorem destinationIdOf_truthy (text : String) :
    (destinationIdOf text).truthy = decide (destinationIdOf text ≠ .null) := by
  unfold destinationIdOf
  cases hm : regexMatch text.toList with
  | some ds =>
    obtain ⟨k, ⟨_, _, _, _, hne, _⟩, _⟩ := regexMatch_some _ ds hm
    have : String.mk ds ≠ "" := by
      intro e
      apply hne
      have := congrArg String.toList e
      simpa using this
    simp [JSVal.truthy, this]
  | none => simp [JSVal.truthy]

/-- C8, counterexample: for the path `/gallery/destination7.html.bak`, whose file
is not of the form `destinationN.html`, the resolver returns `"7"`; and for
`/destination1.html/destination2.html`, whose file is `destination2.html`, it
returns `"1"`. -/
theorem resolver_matches_inside_path :
    getCurrentDestinationId "/gallery/destination7.html.bak" = .str "7"
    ∧ namesDestinationFile "/gallery/destination7.html.bak" = false
    ∧ getCurrentDestinationId "/destination1.html/destination2.html" = .str "1"
    ∧ namesDestinationFile "/destination1.html/destination2.html" = true := by
  decide

/-- C8, amended: `getCurrentDestinationId` is a function of the path that, for
every path, returns a non-null value if and only if the path holds somewhere an
occurrence of `destinationN.html` with `N` one or more decimal digits, and then
returns the digits of the leftmost occurrence as a string; it never returns
`undefined`; it returns a non-null value for every path that names a file of
that form; it returns `"42"` for `/destination/destination42.html` and `null`
for `/index.html`. -/
theorem getCurrentDestinationId_spec :
    (∀ path : String,
      (getCurrentDestinationId path ≠ .null ↔ ∃ k ds, OccursAt path.toList k ds)
      ∧ (∀ N : String, getCurrentDestinationId path = .str N ↔
          ∃ k, OccursAt path.toList k N.toList
            ∧ ∀ k2 ds2, OccursAt path.toList k2 ds2 → k ≤ k2)
      ∧ getCurrentDestinationId path ≠ .undefined
      ∧ (namesDestinationFile path = true → getCurrentDestinationId path ≠ .null))
    ∧ getCurrentDestinationId "/destination/destination42.html" = .str "42"
    ∧ getCurrentDestinationId "/index.html" = .null := by
  refine ⟨fun path => ⟨destinationIdOf_ne_null_iff path, destinationIdOf_eq_str_iff path, ?_, ?_⟩,
    by decide, by decide⟩
  · unfold getCurrentDestinationId destinationIdOf
    cases regexMatch path.toList <;> simp
  · intro h
    apply (destinationIdOf_ne_null_iff path).mpr
    obtain ⟨pre, hpre⟩ := lastSegment_suffix path.toList
    obtain ⟨ds, hds⟩ := isDestinationFileName_occurs _ h
    refine ⟨pre.length + 0, ds, ?_⟩
    rw [hpre]
    exact occursAt_append_left pre _ 0 ds hds

end NakhonSi

namespace NakhonSi

open FavoritesManager

/-! ### The filter -/

/-- C9, counterexample: a card without `href` makes `applyFilter` fail with a
TypeError, and the card is left as it was instead of being shown. -/
theorem applyFilter_fails_without_href :
    applyFilter [] true [{ href := none, display := "none" }]
      = ([{ href := none, display := "none" }], some .TypeError)
    ∧ applyFilter [] false [{ href := none, display := "none" }]
      = ([{ href := none, display := "none" }], some .TypeError) := by
  decide

theorem applyFilterFrom_with_href (favorites : List JSVal) (isActive : Bool) :
    ∀ cards : List Card, (∀ card ∈ cards, card.href ≠ none) →
      applyFilterFrom favorites isActive cards
        = (cards.map (fun card =>
            { card with display :=
                if isActive && hiddenByFilter favorites (card.href.getD "") then "none"
                else "flex" }), none) := by
  intro cards
  induction cards with
  | nil => intro _; rfl
  | cons card rest ih =>
    intro h
    have hrest := ih (fun c hc => h c (List.mem_cons_of_mem _ hc))
    have hcard := h card (List.mem_cons_self _ _)
    cases hh : card.href with
    | none => exact absurd hh hcard
    | some href =>
      unfold applyFilterFrom
      simp only [hh, hrest, List.map_cons, Option.getD_some, hiddenByFilter,
        destinationIdOf_truthy]
      congr 2
      by_cases h1 : isActive = true <;>
        by_cases h2 : destinationIdOf href = .null <;>
          by_cases h3 : includes favorites (destinationIdOf href) = true <;>
            simp [h1, h2, h3]

/-- C9, amended: for every list of cards that all carry an `href` and every
favorites list, `applyFilter` ends without failure and touches only the
`display` of the cards; `applyFilter(true)` leaves a card hidden exactly when an
id can be parsed from its link and that id is not in the favorites list, and
shown otherwise; `applyFilter(false)` leaves every card shown; a card whose
link holds no id is shown in both cases. For cards with ids `"1"`, `"2"`, `"3"`
and favorites `["2"]`, `applyFilter(true)` hides `"1"` and `"3"` and shows
`"2"`. -/
theorem applyFilter_visibility (favorites : List JSVal) (cards : List Card)
    (hhref : ∀ card ∈ cards, card.href ≠ none) :
    (∀ isActive : Bool, (applyFilter favorites isActive cards).2 = none
      ∧ (applyFilter favorites isActive cards).1.map Card.href = cards.map Card.href)
    ∧ (applyFilter favorites true cards).1.map Card.display
        = cards.map (fun card =>
            if hiddenByFilter favorites (card.href.getD "") then "none" else "flex")
    ∧ (applyFilter favorites false cards).1.map Card.display = cards.map (fun _ => "flex")
    ∧ (∀ (isActive : Bool) (i : Nat) (card : Card), cards[i]? = some card →
        destinationIdOf (card.href.getD "") = .null →
        ((applyFilter favorites isActive cards).1.map Card.display)[i]? = some "flex")
    ∧ (applyFilter [.str "2"] true [cardTo "1", cardTo "2", cardTo "3"]).1.map Card.display
        = ["none", "flex", "none"] := by
  have key := fun b => applyFilterFrom_with_href favorites b cards hhref
  refine ⟨?_, ?_, ?_, ?_, by decide⟩
  · intro isActive
    rw [applyFilter, key isActive]
    simp [List.map_map, Function.comp_def]
  · rw [applyFilter, key true]
    simp [List.map_map, Function.comp_def]
  · rw [applyFilter, key false]
    simp [List.map_map, Function.comp_def]
  · intro isActive i card hi hnull
    rw [applyFilter, key isActive]
    simp [List.map_map, Function.comp_def, List.getElem?_map, hi, hiddenByFilter, hnull]

/-- C9, amended, at the three cards of the scenario and the favorites `["2"]`. -/
theorem applyFilter_visibility_witness :
    (∀ card ∈ [cardTo "1", cardTo "2", cardTo "3"], card.href ≠ none)
    ∧ (applyFilter [.str "2"] false [cardTo "1", cardTo "2", cardTo "3"]).1.map Card.display
        = [cardTo "1", cardTo "2", cardTo "3"].map (fun _ => "flex") :=
  ⟨by decide,
    (applyFilter_visibility [.str "2"] [cardTo "1", cardTo "2", cardTo "3"] (by decide)).2.2.1⟩

end NakhonSi

namespace NakhonSi

open FavoritesManager

/-! ### Repaint -/

/-- C10, counterexample. On the page of destination 7, an element with an empty
`data-fav-id` that is not the detail button is bound to `"7"` by the resolver
fallback, and `toggle("7")` returns `true` while the element stays inactive. On
the same page a detail button tagged `"5"` is bound to `"5"`, and `toggle("7")`
repaints it. And an element tagged `a"b` is bound to that id, for which the
selector text is invalid: `toggle` throws and the element is not repainted. -/
theorem repaint_misses_fallback_binding :
    (initUI (pageOf "/destination/destination7.html" [cardButton ""])).2 = [some (.str "7")]
    ∧ (toggle quietBrowser (initUI (pageOf "/destination/destination7.html" [cardButton ""])).1
        (.str "7")).1 = .returned true
    ∧ (toggle quietBrowser (initUI (pageOf "/destination/destination7.html" [cardButton ""])).1
        (.str "7")).2.elements.map Element.active = [false]
    ∧ (initUI (pageOf "/destination/destination7.html"
        [detailButton (some "5"), cardButton "7"])).2 = [some (.str "5"), some (.str "7")]
    ∧ (initUI (pageOf "/destination/destination7.html"
        [detailButton (some "5"), cardButton "7"])).1.elements.map Element.active
        = [false, false]
    ∧ (toggle quietBrowser (initUI (pageOf "/destination/destination7.html"
        [detailButton (some "5"), cardButton "7"])).1 (.str "7")).2.elements.map Element.active
        = [true, true]
    ∧ (initUI (pageOf "/index.html" [cardButton "a\"b"])).2 = [some (.str "a\"b")]
    ∧ (toggle quietBrowser (initUI (pageOf "/index.html" [cardButton "a\"b"])).1
        (.str "a\"b")).1 = .threw .DOMSyntaxError
    ∧ (toggle quietBrowser (initUI (pageOf "/index.html" [cardButton "a\"b"])).1
        (.str "a\"b")).2.elements.map Element.active = [false]
    ∧ isFavorite (toggle quietBrowser (initUI (pageOf "/index.html" [cardButton "a\"b"])).1
        (.str "a\"b")).2 (.str "a\"b") = true := by
  decide

theorem updateButtonStyle_idem (btn : Element) (b : Bool) :
    updateButtonStyle (updateButtonStyle btn b) b = updateButtonStyle btn b := by
  unfold updateButtonStyle
  by_cases h : btn.isDetail = true <;> simp [h]

theorem updateButtonStyle_fields (btn : Element) (b : Bool) :
    (updateButtonStyle btn b).active = b
    ∧ (updateButtonStyle btn b).favId = btn.favId
    ∧ (updateButtonStyle btn b).isDetail = btn.isDetail := by
  unfold updateButtonStyle
  by_cases h : btn.isDetail = true <;> simp [h]

theorem updateDetail_getElem (b : Bool) :
    ∀ (els : List Element) (i : Nat),
      (updateDetail b els)[i]? =
        (els[i]?).map (fun e => if detailIndex els = some i then updateButtonStyle e b else e) := by
  intro els
  induction els with
  | nil => intro i; simp [updateDetail]
  | cons e es ih =>
    intro i
    unfold updateDetail detailIndex
    by_cases hd : e.isDetail = true
    · cases i with
      | zero => simp [hd]
      | succ j => simp [hd]
    · cases i with
      | zero =>
        simp only [hd, if_false, List.getElem?_cons_zero, Option.map_some']
        cases detailIndex es <;> simp
      | succ j =>
        rw [if_neg hd, if_neg hd, List.getElem?_cons_succ, List.getElem?_cons_succ, ih j]
        cases detailIndex es <;> simp

theorem detailIndex_map (f : Element → Element) (hf : ∀ e, (f e).isDetail = e.isDetail) :
    ∀ els : List Element, detailIndex (els.map f) = detailIndex els := by
  intro els
  induction els with
  | nil => rfl
  | cons e es ih => simp [detailIndex, hf, ih]

theorem repaintedElements_getElem (path : String) (els : List Element) (id : JSVal) (b : Bool)
    (i : Nat) :
    (repaintedElements path els id b)[i]? =
      (els[i]?).map (fun e => if repaints path els id i then updateButtonStyle e b else e) := by
  have hmapDetail : detailIndex (els.map
      (fun btn => if selectedByFavId id.toText btn then updateButtonStyle btn b else btn))
      = detailIndex els := by
    apply detailIndex_map
    intro e
    by_cases h : selectedByFavId id.toText e = true
    · simp [h, (updateButtonStyle_fields e b).2.2]
    · simp [h]
  unfold repaintedElements
  cases hi : els[i]? with
  | none =>
    by_cases hp : getCurrentDestinationId path = id
    · simp [hp, updateDetail_getElem, List.getElem?_map, hi]
    · simp [hp, List.getElem?_map, hi]
  | some e =>
    by_cases hp : getCurrentDestinationId path = id
    · simp only [hp, if_true, updateDetail_getElem, hmapDetail, List.getElem?_map, hi,
        Option.map_some', repaints, decide_True, Bool.true_and]
      by_cases h1 : selectedByFavId id.toText e = true <;>
        by_cases h2 : detailIndex els = some i <;>
          simp [h1, h2, updateButtonStyle_idem]
    · simp only [hp, if_false, List.getElem?_map, hi, Option.map_some', repaints,
        decide_False, Bool.false_and, Bool.or_false]

theorem updateDetail_length (b : Bool) :
    ∀ els : List Element, (updateDetail b els).length = els.length := by
  intro els
  induction els with
  | nil => rfl
  | cons e es ih =>
    unfold updateDetail
    by_cases hd : e.isDetail = true <;> simp [hd, ih]

theorem repaintedElements_length (path : String) (els : List Element) (id : JSVal) (b : Bool) :
    (repaintedElements path els id b).length = els.length := by
  unfold repaintedElements
  by_cases hp : getCurrentDestinationId path = id <;> simp [hp, updateDetail_length]

/-- C10, amended: for every page and every id whose text holds no double quote,
backslash, line break or NUL, `toggle` of the id returns, and after it every
element whose `data-fav-id` is the text of the id, and the first
`#add-favorite-detail` element when the resolver gives the id for the current
path, is repainted with the value `toggle` returned, so that its `active` flag
equals that value, and every other element is unchanged; every element with a
non-empty `data-fav-id` is bound by `initUI` to that text and is among the
repainted ones for it; two elements tagged `"7"` end in the same visual state
after `toggle("7")`. -/
theorem toggle_repaints (B : Browser) (s : State) (x : JSVal)
    (hplain : selectorPlain x.toText = true) :
    (toggle B s x).1 = .returned (!isFavorite s x)
    ∧ (toggle B s x).2.elements.length = s.elements.length
    ∧ (∀ (i : Nat) (e : Element), s.elements[i]? = some e →
        (toggle B s x).2.elements[i]? =
            some (if repaints s.path s.elements x i then updateButtonStyle e (!isFavorite s x)
                  else e)
        ∧ (updateButtonStyle e (!isFavorite s x)).active = (!isFavorite s x)
        ∧ (updateButtonStyle e (!isFavorite s x)).favId = e.favId
        ∧ (updateButtonStyle e (!isFavorite s x)).isDetail = e.isDetail)
    ∧ (∀ (i : Nat) (e : Element) (t : String), s.elements[i]? = some e →
        e.favId = some t → t ≠ "" →
        (initUI s).2[i]? = some (some (.str t))
        ∧ repaints s.path s.elements (.str t) i = true)
    ∧ (toggle quietBrowser
        (initUI (pageOf "/index.html" [cardButton "7", cardButton "8", cardButton "7"])).1
        (.str "7")).2.elements.map Element.active = [true, false, true] := by
  obtain ⟨hret, hels⟩ := toggle_plain B s x hplain
  rw [not_mem_eq_not_isFavorite] at hret hels
  refine ⟨hret, ?_, ?_, ?_, by decide⟩
  · rw [hels, repaintedElements_length]
  · intro i e hi
    refine ⟨?_, updateButtonStyle_fields e _⟩
    rw [hels, repaintedElements_getElem, hi]
    rfl
  · intro i e t hi ht hne
    constructor
    · rw [initUI_listeners, List.getElem?_map, hi]
      simp [initButton, selected, resolveId, datasetFavId, ht, JSVal.truthy, hne]
    · simp [repaints, hi, ht, JSVal.toText, selectedByFavId]

/-- C10, amended, at a page with the elements tagged `"7"`, `"8"`, `"7"` and the
id `"7"`. -/
theorem toggle_repaints_witness :
    selectorPlain (JSVal.str "7").toText = true
    ∧ (toggle quietBrowser
        (initUI (pageOf "/index.html" [cardButton "7", cardButton "8", cardButton "7"])).1
        (.str "7")).1
      = .returned (!isFavorite
          (initUI (pageOf "/index.html" [cardButton "7", cardButton "8", cardButton "7"])).1
          (.str "7"))
    ∧ (toggle quietBrowser
        (initUI (pageOf "/index.html" [cardButton "7", cardButton "8", cardButton "7"])).1
        (.str "7")).2.elements.length
      = (initUI (pageOf "/index.html"
          [cardButton "7", cardButton "8", cardButton "7"])).1.elements.length :=
  ⟨by decide,
    (toggle_repaints quietBrowser
      (initUI (pageOf "/index.html" [cardButton "7", cardButton "8", cardButton "7"])).1
      (.str "7") (by decide)).1,
    (toggle_repaints quietBrowser
      (initUI (pageOf "/index.html" [cardButton "7", cardButton "8", cardButton "7"])).1
      (.str "7") (by decide)).2.1⟩

end NakhonSi

namespace NakhonSi

open FavoritesManager

/-! ### Fuel of the parser -/

theorem skipWs_length : ∀ cs : List Char, (skipWs cs).length ≤ cs.length := by
  intro cs
  induction cs with
  | nil => simp [skipWs]
  | cons c cs ih =>
    unfold skipWs
    by_cases h : isJsonWs c = true
    · simp only [h, if_true, List.length_cons]; omega
    · simp [h]

theorem matchLiteral_length (p cs r : List Char) (h : matchLiteral p cs = some r) :
    r.length + p.length = cs.length := by
  rw [(matchLiteral_iff p cs r).mp h, List.length_append]; omega

theorem spanDigits_length (cs : List Char) : (spanDigits cs).2.length ≤ cs.length := by
  have h := congrArg List.length (spanDigits_spec cs).1
  rw [List.length_append] at h
  omega

theorem parseStringBody_length :
    ∀ (fuel : Nat) (cs : List Char) (acc units : List Nat) (r : List Char),
      parseStringBody fuel cs acc = some (units, r) → r.length < cs.length := by
  intro fuel
  induction fuel with
  | zero => intro cs acc units r h; simp [parseStringBody] at h
  | succ f ih =>
    intro cs acc units r h
    cases cs with
    | nil => simp [parseStringBody] at h
    | cons c cs =>
      unfold parseStringBody at h
      split_ifs at h with h1 h2 h3
      · simp only [Option.some.injEq, Prod.mk.injEq] at h
        rw [← h.2]; simp
      · split at h
        · split at h
          · have hrec := ih _ _ _ _ h
            simp only [List.length_cons] at hrec ⊢
            omega
          · simp at h
        · split at h
          · have hrec := ih _ _ _ _ h
            simp only [List.length_cons] at hrec ⊢
            omega
          · simp at h
        · simp at h
      · have hrec := ih _ _ _ _ h
        simp only [List.length_cons]
        omega

theorem parseStringBody_fuel :
    ∀ (fuel : Nat) (cs : List Char) (acc : List Nat) (g : Nat), cs.length < fuel →
      cs.length < g → parseStringBody fuel cs acc = parseStringBody g cs acc := by
  intro fuel
  induction fuel with
  | zero => intro cs acc g h; omega
  | succ f ih =>
    intro cs acc g hf hg
    obtain ⟨g', rfl⟩ : ∃ g', g = g' + 1 := ⟨g - 1, by omega⟩
    cases cs with
    | nil => simp [parseStringBody]
    | cons c cs =>
      simp only [List.length_cons] at hf hg
      unfold parseStringBody
      split_ifs with h1 h2 h3
      · rfl
      · split
        · split
          · simp only [List.length_cons] at hf hg
            exact ih _ _ g' (by omega) (by omega)
          · rfl
        · split
          · simp only [List.length_cons] at hf hg
            exact ih _ _ g' (by omega) (by omega)
          · rfl
        · rfl
      · rfl
      · exact ih _ _ g' (by omega) (by omega)

theorem parseString_length (cs : List Char) (units : List Nat) (r : List Char)
    (h : parseString cs = some (units, r)) : r.length < cs.length :=
  parseStringBody_length _ cs [] units r h

theorem parseIntPart_length (cs ip r : List Char) (h : parseIntPart cs = some (ip, r)) :
    r.length < cs.length := by
  cases cs with
  | nil => simp [parseIntPart] at h
  | cons c cs =>
    simp only [parseIntPart] at h
    split_ifs at h with h1 h2
    · simp only [Option.some.injEq, Prod.mk.injEq] at h
      rw [← h.2]; simp
    · simp only [Option.some.injEq] at h
      have hsp : spanDigits (c :: cs) = (c :: (spanDigits cs).1, (spanDigits cs).2) := by
        simp [spanDigits, h2]
      rw [hsp] at h
      simp only [Prod.mk.injEq] at h
      have := spanDigits_length cs
      rw [← h.2]
      simp only [List.length_cons]
      omega

theorem parseFraction_length (cs fp r : List Char) (h : parseFraction cs = some (fp, r)) :
    r.length ≤ cs.length := by
  unfold parseFraction at h
  split at h
  · rename_i cs2
    split_ifs at h
    simp only [Option.some.injEq] at h
    have := spanDigits_length cs2
    rw [h] at this
    simp only [List.length_cons]
    simp only at this
    omega
  · simp only [Option.some.injEq, Prod.mk.injEq] at h
    rw [← h.2]

theorem takeSign_length (cs : List Char) : (takeSign cs).2.length ≤ cs.length := by
  unfold takeSign
  split <;> simp

theorem takeMinus_length (cs : List Char) : (takeMinus cs).2.length ≤ cs.length := by
  unfold takeMinus
  split <;> simp

theorem parseExponentDigits_length (negative : Bool) (cs : List Char) (e : Int) (r : List Char)
    (h : parseExponentDigits negative cs = some (e, r)) : r.length ≤ cs.length := by
  unfold parseExponentDigits at h
  have := spanDigits_length cs
  split_ifs at h <;>
    · simp only [Option.some.injEq, Prod.mk.injEq] at h
      rw [← h.2]
      exact this

theorem parseExponent_length (cs : List Char) (e : Int) (r : List Char)
    (h : parseExponent cs = some (e, r)) : r.length ≤ cs.length := by
  unfold parseExponent at h
  split at h
  · rename_i c cs2
    split_ifs at h
    · have h1 := parseExponentDigits_length _ _ _ _ h
      have h2 := takeSign_length cs2
      simp only [List.length_cons]
      omega
    · simp only [Option.some.injEq, Prod.mk.injEq] at h
      rw [← h.2]
  · simp only [Option.some.injEq, Prod.mk.injEq] at h
    rw [← h.2]

theorem parseNumber_length (cs : List Char) (n : JNumber) (r : List Char)
    (h : parseNumber cs = some (n, r)) : r.length < cs.length := by
  unfold parseNumber at h
  have hsign := takeMinus_length cs
  split at h
  · simp at h
  · rename_i ip r1 hip
    split at h
    · simp at h
    · rename_i fp r2 hfp
      split at h
      · simp at h
      · rename_i e r3 hex
        simp only [Option.some.injEq, Prod.mk.injEq] at h
        have h1 := parseIntPart_length _ _ _ hip
        have h2 := parseFraction_length _ _ _ hfp
        have h3 := parseExponent_length _ _ _ hex
        rw [← h.2]
        omega

end NakhonSi

namespace NakhonSi

theorem parseValue_fuel_step (f : Nat)
    (ihE : ∀ cs v r, parseElements f cs = some (v, r) →
        r.length < cs.length ∧ ∀ g, 2 * cs.length + 1 ≤ g → parseElements g cs = some (v, r))
    (ihM : ∀ cs v r, parseMembers f cs = some (v, r) →
        r.length < cs.length ∧ ∀ g, 2 * cs.length + 1 ≤ g → parseMembers g cs = some (v, r)) :
    ∀ cs v r, parseValue (f + 1) cs = some (v, r) →
        r.length < cs.length ∧ ∀ g, 2 * cs.length ≤ g → parseValue g cs = some (v, r) := by
  intro cs v r h0
  have hws := skipWs_length cs
  have h := h0
  unfold parseValue at h
  cases hsk : skipWs cs with
  | nil => rw [hsk] at h; simp at h
  | cons c rest =>
    rw [hsk] at h hws
    simp only [List.length_cons] at hws
    simp only at h
    have hpos : ∀ g, 2 * cs.length ≤ g → ∃ g', g = g' + 1 := fun g hg => ⟨g - 1, by omega⟩
    by_cases h1 : c = '"'
    · have key : ∀ k, parseValue (k + 1) cs = parseValue (f + 1) cs := by
        intro k; unfold parseValue; rw [hsk]; simp only [h1, if_true]
      simp only [h1, if_true] at h
      refine ⟨?_, ?_⟩
      · split at h
        · rename_i s r2 hps
          simp only [Option.some.injEq, Prod.mk.injEq] at h
          have := parseString_length _ _ _ hps
          rw [← h.2]; omega
        · simp at h
      · intro g hg
        obtain ⟨g', rfl⟩ := hpos g hg
        rw [key, h0]
    by_cases h2 : c = '['
    · have key : ∀ k, parseValue (k + 1) cs =
          match skipWs rest with
          | ']' :: r => some (.arr [], r)
          | _ => parseElements k rest := by
        intro k; unfold parseValue; rw [hsk]; simp only [h2, Char.reduceEq, if_true, if_false]
      simp only [h2, Char.reduceEq, if_true, if_false] at h
      have hws2 := skipWs_length rest
      split at h
      · rename_i r2 hsk2
        simp only [Option.some.injEq, Prod.mk.injEq] at h
        rw [hsk2] at hws2
        simp only [List.length_cons] at hws2
        refine ⟨by rw [← h.2]; omega, ?_⟩
        intro g hg
        obtain ⟨g', rfl⟩ := hpos g hg
        rw [key, hsk2, ← h.1, ← h.2]
        rfl
      · rename_i hne
        obtain ⟨hlen, hfuel⟩ := ihE rest v r h
        refine ⟨by omega, ?_⟩
        intro g hg
        obtain ⟨g', rfl⟩ := hpos g hg
        rw [key]
        split
        · rename_i r2 hsk2
          exact absurd hsk2 (hne r2)
        · exact hfuel g' (by omega)
    by_cases h3 : c = '\x7b'
    · have key : ∀ k, parseValue (k + 1) cs =
          match skipWs rest with
          | '\x7d' :: r => some (.obj [], r)
          | _ => parseMembers k rest := by
        intro k; unfold parseValue; rw [hsk]; simp only [h3, Char.reduceEq, if_true, if_false]
      simp only [h3, Char.reduceEq, if_true, if_false] at h
      have hws2 := skipWs_length rest
      split at h
      · rename_i r2 hsk2
        simp only [Option.some.injEq, Prod.mk.injEq] at h
        rw [hsk2] at hws2
        simp only [List.length_cons] at hws2
        refine ⟨by rw [← h.2]; omega, ?_⟩
        intro g hg
        obtain ⟨g', rfl⟩ := hpos g hg
        rw [key, hsk2, ← h.1, ← h.2]
        rfl
      · rename_i hne
        obtain ⟨hlen, hfuel⟩ := ihM rest v r h
        refine ⟨by omega, ?_⟩
        intro g hg
        obtain ⟨g', rfl⟩ := hpos g hg
        rw [key]
        split
        · rename_i r2 hsk2
          exact absurd hsk2 (hne r2)
        · exact hfuel g' (by omega)
    · have key : ∀ k, parseValue (k + 1) cs = parseValue (f + 1) cs := by
        intro k; unfold parseValue; rw [hsk]; simp only [h1, h2, h3, if_false]
      simp only [h1, h2, h3, if_false] at h
      refine ⟨?_, ?_⟩
      · split_ifs at h
        all_goals
          split at h
          · simp only [Option.some.injEq, Prod.mk.injEq] at h
            first
              | (have hlit := matchLiteral_length _ _ _ ‹_›
                 rw [← h.2]; omega)
              | (have hnum := parseNumber_length _ _ _ ‹_›
                 simp only [List.length_cons] at hnum
                 rw [← h.2]; omega)
          · simp at h
      · intro g hg
        obtain ⟨g', rfl⟩ := hpos g hg
        rw [key, h0]

end NakhonSi

namespace NakhonSi

theorem parseElements_fuel_step (f : Nat)
    (ihV : ∀ cs v r, parseValue f cs = some (v, r) →
        r.length < cs.length ∧ ∀ g, 2 * cs.length ≤ g → parseValue g cs = some (v, r))
    (ihE : ∀ cs v r, parseElements f cs = some (v, r) →
        r.length < cs.length ∧ ∀ g, 2 * cs.length + 1 ≤ g → parseElements g cs = some (v, r)) :
    ∀ cs v r, parseElements (f + 1) cs = some (v, r) →
        r.length < cs.length ∧ ∀ g, 2 * cs.length + 1 ≤ g → parseElements g cs = some (v, r) := by
  intro cs w rr h
  unfold parseElements at h
  have hpos : ∀ g, 2 * cs.length + 1 ≤ g → ∃ g', g = g' + 1 := fun g hg => ⟨g - 1, by omega⟩
  split at h
  · simp at h
  · rename_i v r1 hv
    obtain ⟨hlen1, hfuel1⟩ := ihV cs v r1 hv
    have hws := skipWs_length r1
    split at h
    · rename_i r2 hsk
      simp only [Option.some.injEq, Prod.mk.injEq] at h
      rw [hsk] at hws
      simp only [List.length_cons] at hws
      refine ⟨by rw [← h.2]; omega, ?_⟩
      intro g hg
      obtain ⟨g', rfl⟩ := hpos g hg
      unfold parseElements
      rw [hfuel1 g' (by omega)]
      simp only [hsk, h.1, h.2]
    · rename_i r2 hsk
      rw [hsk] at hws
      simp only [List.length_cons] at hws
      split at h
      · rename_i vs r3 hrec
        simp only [Option.some.injEq, Prod.mk.injEq] at h
        obtain ⟨hlen2, hfuel2⟩ := ihE r2 _ r3 hrec
        refine ⟨by rw [← h.2]; omega, ?_⟩
        intro g hg
        obtain ⟨g', rfl⟩ := hpos g hg
        unfold parseElements
        rw [hfuel1 g' (by omega)]
        simp only [hsk]
        rw [hfuel2 g' (by omega)]
        simp only [h.1, h.2]
      · simp at h
    · simp at h

theorem parseMembers_fuel_step (f : Nat)
    (ihV : ∀ cs v r, parseValue f cs = some (v, r) →
        r.length < cs.length ∧ ∀ g, 2 * cs.length ≤ g → parseValue g cs = some (v, r))
    (ihM : ∀ cs v r, parseMembers f cs = some (v, r) →
        r.length < cs.length ∧ ∀ g, 2 * cs.length + 1 ≤ g → parseMembers g cs = some (v, r)) :
    ∀ cs v r, parseMembers (f + 1) cs = some (v, r) →
        r.length < cs.length ∧ ∀ g, 2 * cs.length + 1 ≤ g → parseMembers g cs = some (v, r) := by
  intro cs w rr h
  unfold parseMembers at h
  have hpos : ∀ g, 2 * cs.length + 1 ≤ g → ∃ g', g = g' + 1 := fun g hg => ⟨g - 1, by omega⟩
  have hws0 := skipWs_length cs
  split at h
  · rename_i r0 hsk0
    rw [hsk0] at hws0
    simp only [List.length_cons] at hws0
    split at h
    · simp at h
    · rename_i k r1 hkey
      have hlenk := parseString_length _ _ _ hkey
      have hws1 := skipWs_length r1
      split at h
      · rename_i r2 hsk1
        rw [hsk1] at hws1
        simp only [List.length_cons] at hws1
        split at h
        · simp at h
        · rename_i v r3 hv
          obtain ⟨hlen3, hfuel3⟩ := ihV r2 v r3 hv
          have hws3 := skipWs_length r3
          split at h
          · rename_i r4 hsk3
            simp only [Option.some.injEq, Prod.mk.injEq] at h
            rw [hsk3] at hws3
            simp only [List.length_cons] at hws3
            refine ⟨by rw [← h.2]; omega, ?_⟩
            intro g hg
            obtain ⟨g', rfl⟩ := hpos g hg
            unfold parseMembers
            simp only [hsk0, hkey, hsk1]
            rw [hfuel3 g' (by omega)]
            simp only [hsk3, h.1, h.2]
          · rename_i r4 hsk3
            rw [hsk3] at hws3
            simp only [List.length_cons] at hws3
            split at h
            · rename_i ms r5 hrec
              simp only [Option.some.injEq, Prod.mk.injEq] at h
              obtain ⟨hlen5, hfuel5⟩ := ihM r4 _ r5 hrec
              refine ⟨by rw [← h.2]; omega, ?_⟩
              intro g hg
              obtain ⟨g', rfl⟩ := hpos g hg
              unfold parseMembers
              simp only [hsk0, hkey, hsk1]
              rw [hfuel3 g' (by omega)]
              simp only [hsk3]
              rw [hfuel5 g' (by omega)]
              simp only [h.1, h.2]
            · simp at h
          · simp at h
      · simp at h
  · simp at h

theorem parse_fuel (f : Nat) :
    (∀ cs v r, parseValue f cs = some (v, r) →
        r.length < cs.length ∧ ∀ g, 2 * cs.length ≤ g → parseValue g cs = some (v, r))
    ∧ (∀ cs v r, parseElements f cs = some (v, r) →
        r.length < cs.length ∧ ∀ g, 2 * cs.length + 1 ≤ g → parseElements g cs = some (v, r))
    ∧ (∀ cs v r, parseMembers f cs = some (v, r) →
        r.length < cs.length ∧ ∀ g, 2 * cs.length + 1 ≤ g → parseMembers g cs = some (v, r)) := by
  induction f with
  | zero =>
    refine ⟨?_, ?_, ?_⟩ <;> intro cs v r h
    · simp [parseValue] at h
    · simp [parseElements] at h
    · simp [parseMembers] at h
  | succ f ih =>
    obtain ⟨ihV, ihE, ihM⟩ := ih
    exact ⟨parseValue_fuel_step f ihE ihM, parseElements_fuel_step f ihV ihE,
      parseMembers_fuel_step f ihV ihM⟩

/-- The fuel that `JSON_parse` gives to the parser is enough: a value that the
parser reads with any amount of fuel, it reads with that amount. -/
theorem JSON_parse_of_parseValue (text : String) (f : Nat) (v : Json) (rest : List Char)
    (h : parseValue f text.toList = some (v, rest)) (hrest : skipWs rest = []) :
    JSON_parse text = .ok v := by
  have hlen : text.length = text.toList.length := rfl
  have := ((parse_fuel f).1 text.toList v rest h).2 (2 * text.length + 2)
    (by rw [hlen]; omega)
  unfold JSON_parse
  rw [this]
  simp only [hrest]

end NakhonSi

namespace NakhonSi

open FavoritesManager

/-! ### `load` -/

/-- C6, counterexample: for the stored content `42`, `load` returns the number
42, not the empty list; for a stored content that is not JSON, `load` fails
with the SyntaxError of `JSON.parse`. -/
theorem load_keeps_non_list :
    load (some "42") = .ok (.num { negative := false, mantissa := 42, exp10 := 0 })
    ∧ load (some "not json") = .error .SyntaxError := by
  refine ⟨rfl, rfl⟩

end NakhonSi

namespace NakhonSi

open FavoritesManager

theorem hex4_of_control : ∀ n : Nat, n < 32 →
    hex4 '0' '0' (hexDigit (n / 16)) (hexDigit (n % 16)) = some n := by
  decide

theorem parseStringBody_step (c : Char) (tail : List Char) (acc : List Nat) (fuel : Nat) :
    parseStringBody (fuel + 1) (quoteChar c ++ tail) acc
      = parseStringBody fuel tail ((utf16Units c).reverse ++ acc) := by
  unfold quoteChar
  by_cases h1 : c = '"'
  · subst h1; simp [parseStringBody, simpleEscape, utf16Units]
  by_cases h2 : c = '\\'
  · subst h2; simp [parseStringBody, simpleEscape, utf16Units]
  by_cases h3 : c = '\x08'
  · subst h3; simp [parseStringBody, simpleEscape, utf16Units]
  by_cases h4 : c = '\x0c'
  · subst h4; simp [parseStringBody, simpleEscape, utf16Units]
  by_cases h5 : c = '\n'
  · subst h5; simp [parseStringBody, simpleEscape, utf16Units]
  by_cases h6 : c = '\r'
  · subst h6; simp [parseStringBody, simpleEscape, utf16Units]
  by_cases h7 : c = '\t'
  · subst h7; simp [parseStringBody, simpleEscape, utf16Units]
  by_cases h8 : c.toNat < 32
  · simp only [h1, h2, h3, h4, h5, h6, h7, h8, if_false, if_true]
    have hx := hex4_of_control c.toNat h8
    have hu : utf16Units c = [c.toNat] := by
      unfold utf16Units
      rw [if_pos (by omega)]
    simp [parseStringBody, hx, hu]
  · simp only [h1, h2, h3, h4, h5, h6, h7, h8, if_false]
    simp [parseStringBody, h1, h2, h8]

theorem parseStringBody_quoted :
    ∀ (s rest : List Char) (acc : List Nat) (fuel : Nat), s.length < fuel →
      parseStringBody fuel (s.flatMap quoteChar ++ '"' :: rest) acc
        = some (acc.reverse ++ s.flatMap utf16Units, rest) := by
  intro s
  induction s with
  | nil =>
    intro rest acc fuel h
    cases fuel with
    | zero => omega
    | succ f => simp [parseStringBody]
  | cons c s ih =>
    intro rest acc fuel h
    cases fuel with
    | zero => omega
    | succ f =>
      rw [List.flatMap_cons, List.append_assoc, parseStringBody_step,
        ih rest _ f (by simpa using h)]
      simp

theorem length_le_flatMap_quoteChar (s : List Char) : s.length ≤ (s.flatMap quoteChar).length := by
  induction s with
  | nil => simp
  | cons c s ih =>
    have hc : 1 ≤ (quoteChar c).length := by
      unfold quoteChar
      split_ifs <;> simp
    simp only [List.flatMap_cons, List.length_append, List.length_cons]
    omega

theorem parseString_quoted (s : String) (rest : List Char) :
    parseString (s.toList.flatMap quoteChar ++ '"' :: rest) = some (utf16 s, rest) := by
  unfold parseString
  rw [parseStringBody_quoted s.toList rest [] _ (by
    have := length_le_flatMap_quoteChar s.toList
    simp only [List.length_append, List.length_cons]
    omega)]
  simp [utf16]

theorem skipWs_of_not_ws (c : Char) (cs : List Char) (h : isJsonWs c = false) :
    skipWs (c :: cs) = c :: cs := by
  simp [skipWs, h]

theorem parseValue_entry (x : JSVal) (rest : List Char) (fuel : Nat) :
    parseValue (fuel + 1) (stringifyEntry x ++ rest) = some (x.toJson, rest) := by
  have hnull : parseValue (fuel + 1) (['n', 'u', 'l', 'l'] ++ rest) = some (Json.null, rest) := by
    unfold parseValue
    have hw : isJsonWs 'n' = false := by decide
    simp [skipWs, hw, matchLiteral]
  cases x with
  | undefined => exact hnull
  | null => exact hnull
  | str s =>
    unfold parseValue
    have hw : isJsonWs '"' = false := by decide
    have hq : stringifyEntry (.str s) ++ rest
        = '"' :: (s.toList.flatMap quoteChar ++ '"' :: rest) := by
      simp [stringifyEntry, quoteJSONString]
    have hps : parseString (s.data.flatMap quoteChar ++ '"' :: rest) = some (utf16 s, rest) :=
      parseString_quoted s rest
    rw [hq, skipWs_of_not_ws _ _ hw]
    simp [hps, JSVal.toJson]

theorem stringifyEntry_head (x : JSVal) :
    ∃ c cs, stringifyEntry x = c :: cs ∧ isJsonWs c = false ∧ c ≠ ']' := by
  cases x with
  | undefined => exact ⟨'n', _, rfl, by decide, by decide⟩
  | null => exact ⟨'n', _, rfl, by decide, by decide⟩
  | str s => exact ⟨'"', _, rfl, by decide, by decide⟩

theorem parseElements_joined :
    ∀ (l : List JSVal) (x : JSVal) (rest : List Char) (fuel : Nat), l.length + 1 < fuel →
      parseElements fuel (joinEntries (x :: l) ++ ']' :: rest)
        = some (.arr ((x :: l).map JSVal.toJson), rest) := by
  intro l
  induction l with
  | nil =>
    intro x rest fuel h
    obtain ⟨f, rfl⟩ : ∃ f, fuel = f + 1 + 1 := ⟨fuel - 2, by simp at h; omega⟩
    unfold parseElements
    have hw : isJsonWs ']' = false := by decide
    simp [joinEntries, parseValue_entry, skipWs, hw]
  | cons y l ih =>
    intro x rest fuel h
    obtain ⟨f, rfl⟩ : ∃ f, fuel = f + 1 + 1 := ⟨fuel - 2, by simp at h; omega⟩
    unfold parseElements
    have hw : isJsonWs ',' = false := by decide
    have hj : joinEntries (x :: y :: l) ++ ']' :: rest
        = stringifyEntry x ++ (',' :: (joinEntries (y :: l) ++ ']' :: rest)) := by
      simp [joinEntries]
    rw [hj, parseValue_entry]
    have hrec := ih y rest (f + 1) (by simp at h ⊢; omega)
    simp [skipWs, hw, hrec]

theorem length_le_joinEntries : ∀ l : List JSVal, l.length ≤ (joinEntries l).length := by
  intro l
  induction l with
  | nil => simp [joinEntries]
  | cons x l ih =>
    obtain ⟨c, cs, hx, _, _⟩ := stringifyEntry_head x
    cases l with
    | nil => simp [joinEntries, hx]
    | cons y l =>
      simp only [joinEntries, List.length_append, List.length_cons] at ih ⊢
      omega

theorem parseValue_array (fuel : Nat) (c : Char) (cs : List Char)
    (hcw : isJsonWs c = false) (hcb : c ≠ ']') :
    parseValue (fuel + 1) ('[' :: c :: cs) = parseElements fuel (c :: cs) := by
  have hw : isJsonWs '[' = false := by decide
  unfold parseValue
  rw [skipWs_of_not_ws _ _ hw]
  simp only [Char.reduceEq, if_false, if_true]
  rw [skipWs_of_not_ws _ _ hcw]
  split
  · rename_i r heq
    simp only [List.cons.injEq] at heq
    exact absurd heq.1 hcb
  · rfl

theorem JSON_parse_stringify (l : List JSVal) :
    JSON_parse (JSON_stringify l) = .ok (.arr (l.map JSVal.toJson)) := by
  unfold JSON_parse JSON_stringify
  have hlen : (String.mk ('[' :: (joinEntries l ++ [']']))).length
      = (joinEntries l).length + 2 := by
    simp [String.length]
  rw [hlen]
  show (match parseValue (2 * ((joinEntries l).length + 2) + 1 + 1)
      ('[' :: (joinEntries l ++ [']'])) with
    | some (v, rest) =>
      match skipWs rest with
      | [] => Except.ok v
      | _ :: _ => Except.error JSError.SyntaxError
    | none => Except.error JSError.SyntaxError) = _
  cases l with
  | nil => rfl
  | cons x l =>
    obtain ⟨c, cs, hx, hcw, hcb⟩ := stringifyEntry_head x
    have hbound := length_le_joinEntries (x :: l)
    have hpe := parseElements_joined l x []
      (2 * ((joinEntries (x :: l)).length + 2) + 1) (by simp at hbound ⊢; omega)
    have hhead : ∃ cs2, joinEntries (x :: l) ++ [']'] = c :: cs2 := by
      cases l with
      | nil => exact ⟨cs ++ [']'], by simp [joinEntries, hx]⟩
      | cons y l => exact ⟨cs ++ ',' :: joinEntries (y :: l) ++ [']'], by simp [joinEntries, hx]⟩
    obtain ⟨cs2, hcs2⟩ := hhead
    have hpv := parseValue_array (2 * ((joinEntries (x :: l)).length + 2) + 1) c cs2 hcw hcb
    rw [← hcs2] at hpv
    rw [hpv, hpe]
    rfl

end NakhonSi

namespace NakhonSi

open FavoritesManager

theorem load_of_parse (text : String) :
    (∀ v : Json, JSON_parse text = .ok v →
        load (some text) = .ok (if v.truthy then v else .arr []))
    ∧ (∀ e : JSError, JSON_parse text = .error e → load (some text) = .error e) := by
  constructor
  · intro v h; simp [load, h]
  · intro e h; simp [load, h]

/-- C6, amended: `load` returns the empty list when the key is absent and
whenever the stored content is JSON text of a falsy value (`null`, `false`,
`0`, the empty string); when the stored content is what `save` wrote for a
list it returns that list, a list of strings for a list of strings (each
string as the sequence of its code units, and an escape such as `\ud800` as the
code unit it spells); and `isFavorite` is false for every id on the empty list. Any other content that
parses is returned as the parsed value itself, and on content that does not
parse `load` fails with the error of `JSON.parse`. -/
theorem load_spec :
    load none = .ok (.arr [])
    ∧ (∀ (text : String) (v : Json), JSON_parse text = .ok v →
        load (some text) = .ok (if v.truthy then v else .arr []))
    ∧ (∀ (text : String) (e : JSError), JSON_parse text = .error e →
        load (some text) = .error e)
    ∧ load (some "null") = .ok (.arr [])
    ∧ load (some "false") = .ok (.arr [])
    ∧ load (some "0") = .ok (.arr [])
    ∧ load (some "\"\"") = .ok (.arr [])
    ∧ load (some "[\"\\ud800\"]") = .ok (.arr [.str [0xD800]])
    ∧ (∀ l : List JSVal, load (save l) = .ok (.arr (l.map JSVal.toJson)))
    ∧ (∀ l : List String,
        load (save (l.map JSVal.str)) = .ok (.arr (l.map (fun t => Json.str (utf16 t)))))
    ∧ (∀ (s : State) (x : JSVal), s.favorites = [] → isFavorite s x = false) := by
  have hsave : ∀ l : List JSVal, load (save l) = .ok (.arr (l.map JSVal.toJson)) := by
    intro l
    simp [load, save, JSON_parse_stringify, Json.truthy]
  refine ⟨rfl, fun text => (load_of_parse text).1, fun text => (load_of_parse text).2,
    rfl, rfl, rfl, rfl, rfl, hsave, ?_, ?_⟩
  · intro l
    rw [hsave, List.map_map]
    rfl
  · intro s x h
    simp [isFavorite, includes, h]

end NakhonSi
